import Mathlib

/-!
# Verification of the Muser embedding-viz pipeline core

Shallow embedding of the analytical pipeline of `embedding-viz/pipeline`
(`cluster.py`, `phylogeny.py`): constrained distance-graph construction,
BFS parent assignment over the (symmetrized) minimum spanning tree,
species generation, HDBSCAN post-processing, and the two cluster-label
heuristics.  Numeric code is modelled over `ℚ`/`ℤ` (Python floats and
ints), fallible code over `Option`/`Except`, and external collaborators
(scipy's MST, the CLIP model, the filesystem) appear as explicit
parameters.
-/

namespace Muser

/-! ## phylogeny.py — constants and `build_constrained_graph` -/

/-- `TEMPORAL_THRESHOLD = 30 * 24 * 60 * 60` (30 days, in seconds). -/
def TEMPORAL_THRESHOLD : ℤ := 30 * 24 * 60 * 60

/-- `SIMILARITY_THRESHOLD = 0.85`. -/
def SIMILARITY_THRESHOLD : ℚ := 85 / 100

/-- Timestamp lookup `timestamps[i]` for a timestamp list. -/
def tsGet (ts : List ℤ) (i : ℕ) : ℤ := ts.getD i 0

/-- `build_constrained_graph`: for a pair `(i, j)` of distinct indices the
entry of the distance matrix: `some dist` when the loop body assigned a
finite distance (`time_diff < TEMPORAL_THRESHOLD or sim > SIMILARITY_THRESHOLD`),
`none` for the retained `np.inf`.  The source iterates over `i < j` and
assigns both `[i, j]` and `[j, i]` from `similarity[i, j]`, hence the
`min`/`max` indexing here. -/
def buildConstrainedGraph (sim : ℕ → ℕ → ℚ) (ts : List ℤ) (i j : ℕ) : Option ℚ :=
  if i = j then none
  else
    let timeDiff : ℤ := |tsGet ts (min i j) - tsGet ts (max i j)|
    let s : ℚ := sim (min i j) (max i j)
    if timeDiff < TEMPORAL_THRESHOLD ∨ SIMILARITY_THRESHOLD < s then
      some ((1 - s) + ((timeDiff : ℚ) / (TEMPORAL_THRESHOLD : ℚ)) * (1 / 100))
    else none

/-- Constant similarity 0.9 (scenario fixture). -/
def simNinety : ℕ → ℕ → ℚ := fun _ _ => 9 / 10

/-- Constant similarity 0.5 (scenario fixture). -/
def simHalf : ℕ → ℕ → ℚ := fun _ _ => 5 / 10

/-- Two items 40 days apart (scenario fixture; 40 days = 3456000 seconds). -/
def tsFortyDays : List ℤ := [0, 3456000]

/-- C2: an edge exists iff the pair is temporally close (strictly below the
30-day threshold) or highly similar (strictly above 0.85); an existing edge
has weight `(1 - sim) + (time_diff / threshold) * 0.01`; otherwise the pair
keeps infinite distance (`none`).  Concretely, two items 40 days apart with
similarity 0.9 get weight `0.1 + (40/30) * 0.01` and with similarity 0.5 get
no edge. -/
theorem constrained_graph_edge_rule (sim : ℕ → ℕ → ℚ) (ts : List ℤ) (i j : ℕ)
    (hij : i ≠ j) :
    (((buildConstrainedGraph sim ts i j).isSome = true) ↔
      (|tsGet ts (min i j) - tsGet ts (max i j)| < TEMPORAL_THRESHOLD ∨
        SIMILARITY_THRESHOLD < sim (min i j) (max i j))) ∧
    (∀ w : ℚ, buildConstrainedGraph sim ts i j = some w →
      w = (1 - sim (min i j) (max i j)) +
        (((|tsGet ts (min i j) - tsGet ts (max i j)| : ℤ) : ℚ) / (TEMPORAL_THRESHOLD : ℚ)) * (1 / 100)) ∧
    (¬ (|tsGet ts (min i j) - tsGet ts (max i j)| < TEMPORAL_THRESHOLD ∨
        SIMILARITY_THRESHOLD < sim (min i j) (max i j)) →
      buildConstrainedGraph sim ts i j = none) ∧
    buildConstrainedGraph simNinety tsFortyDays 0 1 = some (1 / 10 + (4 / 3) * (1 / 100)) ∧
    buildConstrainedGraph simHalf tsFortyDays 0 1 = none := by
  have key : buildConstrainedGraph sim ts i j =
      if |tsGet ts (min i j) - tsGet ts (max i j)| < TEMPORAL_THRESHOLD ∨
          SIMILARITY_THRESHOLD < sim (min i j) (max i j) then
        some ((1 - sim (min i j) (max i j)) +
          (((|tsGet ts (min i j) - tsGet ts (max i j)| : ℤ) : ℚ) / (TEMPORAL_THRESHOLD : ℚ)) * (1 / 100))
      else none := by
    unfold buildConstrainedGraph
    rw [if_neg hij]
  refine ⟨?_, ?_, ?_, ?_, ?_⟩
  · by_cases hc : |tsGet ts (min i j) - tsGet ts (max i j)| < TEMPORAL_THRESHOLD ∨
        SIMILARITY_THRESHOLD < sim (min i j) (max i j)
    · rw [key, if_pos hc]; simpa using hc
    · rw [key, if_neg hc]; simpa using hc
  · intro w hw
    rw [key] at hw
    by_cases hc : |tsGet ts (min i j) - tsGet ts (max i j)| < TEMPORAL_THRESHOLD ∨
        SIMILARITY_THRESHOLD < sim (min i j) (max i j)
    · rw [if_pos hc] at hw
      exact (Option.some_injective _ hw).symm
    · rw [if_neg hc] at hw
      exact absurd hw (by simp)
  · intro hcond
    rw [key, if_neg hcond]
  · show buildConstrainedGraph simNinety tsFortyDays 0 1 = _
    norm_num [buildConstrainedGraph, tsGet, simNinety, tsFortyDays,
      TEMPORAL_THRESHOLD, SIMILARITY_THRESHOLD]
  · show buildConstrainedGraph simHalf tsFortyDays 0 1 = none
    norm_num [buildConstrainedGraph, tsGet, simHalf, tsFortyDays,
      TEMPORAL_THRESHOLD, SIMILARITY_THRESHOLD]

/-- Witness for C2 at the concrete 40-days-apart, similarity-0.9 pair. -/
theorem constrained_graph_edge_rule_witness :
    (buildConstrainedGraph simNinety tsFortyDays 0 1).isSome = true :=
  (constrained_graph_edge_rule simNinety tsFortyDays 0 1 (by decide)).1.mpr
    (Or.inr (by norm_num [SIMILARITY_THRESHOLD, simNinety]))

/-! ## phylogeny.py — `build_phylogeny_tree`

The scipy call `minimum_spanning_tree(distances_fallback)` is an external
collaborator; its dense result `mst_array` enters the embedding as an
arbitrary matrix `mst : ℕ → ℕ → ℚ`.  The BFS below is the literal
`while queue:` loop: `visited` records nodes in discovery order
(`visited[i] = True` in the source corresponds to membership here),
`parent` is the parent array with `none` for `-1`, `queue` the FIFO queue. -/

/-- State of the BFS loop in `build_phylogeny_tree`. -/
structure BfsState where
  visited : List ℕ
  parent : ℕ → Option ℕ
  queue : List ℕ

/-- `np.argmin(timestamps)`: index of the first minimal entry
(`root_idx`). -/
def argminIdx (ts : List ℤ) : ℕ :=
  (List.range ts.length).foldl
    (fun best i => if tsGet ts i < tsGet ts best then i else best) 0

/-- `mst_symmetric[node, neighbor] > 0` where
`mst_symmetric = mst_array + mst_array.T`. -/
def mstAdj (mst : ℕ → ℕ → ℚ) (node neighbor : ℕ) : Bool :=
  decide (0 < mst node neighbor + mst neighbor node)

/-- Body of the `for neighbor in range(n):` loop: a neighbor over a
positive-weight symmetrized MST edge that is not yet visited is marked
visited, given `node` as parent, and enqueued. -/
def bfsStep (mst : ℕ → ℕ → ℚ) (node : ℕ) (st : BfsState) (nb : ℕ) : BfsState :=
  if mstAdj mst node nb = true ∧ nb ∉ st.visited then
    { visited := st.visited ++ [nb],
      parent := fun k => if k = nb then some node else st.parent k,
      queue := st.queue ++ [nb] }
  else st

/-- The whole `for neighbor in range(n):` loop. -/
def bfsVisitNeighbors (mst : ℕ → ℕ → ℚ) (n node : ℕ) (s : BfsState) : BfsState :=
  (List.range n).foldl (bfsStep mst node) s

/-- The `while queue:` loop with explicit fuel.  Each loop iteration pops
one queue element and every node is enqueued at most once (it is enqueued
exactly when it is freshly visited), so `n + 1` units of fuel are enough
for the loop to reach its empty-queue exit. -/
def bfsLoop (mst : ℕ → ℕ → ℚ) (n : ℕ) : ℕ → BfsState → BfsState
  | 0, s => s
  | fuel + 1, s =>
    match s.queue with
    | [] => s
    | node :: rest =>
      bfsLoop mst n fuel (bfsVisitNeighbors mst n node ⟨s.visited, s.parent, rest⟩)

/-- The BFS of `build_phylogeny_tree`: start from `root_idx = argmin ts`
with it visited and enqueued, run the loop. -/
def bfsRun (mst : ℕ → ℕ → ℚ) (ts : List ℤ) : BfsState :=
  bfsLoop mst ts.length (ts.length + 1)
    ⟨[argminIdx ts], fun _ => none, [argminIdx ts]⟩

/-- The fallback pass `for i in range(n): if not visited[i]: parent[i] = root_idx`
on top of the BFS result: `none` still encodes `-1`. -/
def attachParent (s : BfsState) (root : ℕ) (i : ℕ) : Option ℕ :=
  if i ∈ s.visited then s.parent i else some root

/-- The final per-index parent assignment of `build_phylogeny_tree`. -/
def phyloParent (mst : ℕ → ℕ → ℚ) (ts : List ℤ) : ℕ → Option ℕ :=
  attachParent (bfsRun mst ts) (argminIdx ts)

/-- Follow parent pointers `m` times. -/
def iterParent (p : ℕ → Option ℕ) : ℕ → ℕ → Option ℕ
  | 0, i => some i
  | m + 1, i => (p i).bind (iterParent p m)

/-- Loop invariant of the BFS: visited nodes are distinct indices below
`n` headed by the root, queued nodes are visited, the root keeps parent
`-1`, unvisited nodes have parent `-1`, and every visited non-root node's
parent was visited strictly earlier. -/
structure BfsInv (n root : ℕ) (s : BfsState) : Prop where
  nodup : s.visited.Nodup
  bounded : ∀ x ∈ s.visited, x < n
  queueSub : ∀ x ∈ s.queue, x ∈ s.visited
  headRoot : ∃ rest, s.visited = root :: rest
  parentRoot : s.parent root = none
  parentUnvisited : ∀ i, i ∉ s.visited → s.parent i = none
  parentOrder : ∀ i ∈ s.visited, i ≠ root →
    ∃ j ∈ s.visited, s.parent i = some j ∧ s.visited.indexOf j < s.visited.indexOf i

lemma indexOf_append_fresh {v : List ℕ} {a : ℕ} (h : a ∉ v) :
    (v ++ [a]).indexOf a = v.length := by
  induction v with
  | nil => simp [List.indexOf_cons]
  | cons x xs ih =>
    have hax : ¬(x == a) = true := by
      simp only [beq_iff_eq]
      rintro rfl
      exact h (List.mem_cons_self _ _)
    simp only [List.cons_append, List.indexOf_cons, hax, cond_false, List.length_cons]
    rw [ih (fun hm => h (List.mem_cons_of_mem _ hm))]

lemma bfsStep_subset (mst : ℕ → ℕ → ℚ) (node : ℕ) (st : BfsState) (nb : ℕ) :
    st.visited ⊆ (bfsStep mst node st nb).visited := by
  unfold bfsStep
  split
  · exact fun x hx => List.mem_append_left _ hx
  · exact fun x hx => hx

lemma bfsStep_inv {mst : ℕ → ℕ → ℚ} {n root node : ℕ} {st : BfsState} {nb : ℕ}
    (hnb : nb < n) (hnode : node ∈ st.visited) (h : BfsInv n root st) :
    BfsInv n root (bfsStep mst node st nb) := by
  unfold bfsStep
  split
  case isTrue hcond =>
    obtain ⟨hadj, hfresh⟩ := hcond
    have hrootne : root ≠ nb := by
      rintro rfl
      obtain ⟨rest, hv⟩ := h.headRoot
      exact hfresh (hv ▸ List.mem_cons_self _ _)
    refine ⟨?_, ?_, ?_, ?_, ?_, ?_, ?_⟩
    · simpa [List.nodup_append] using ⟨h.nodup, hfresh⟩
    · intro x hx
      rcases List.mem_append.1 hx with hx | hx
      · exact h.bounded x hx
      · simpa using (List.mem_singleton.1 hx) ▸ hnb
    · intro x hx
      rcases List.mem_append.1 hx with hx | hx
      · exact List.mem_append_left _ (h.queueSub x hx)
      · exact List.mem_append_right _ hx
    · obtain ⟨rest, hv⟩ := h.headRoot
      exact ⟨rest ++ [nb], by simp [hv]⟩
    · simpa [hrootne] using h.parentRoot
    · intro i hi
      have hinb : i ≠ nb := by
        rintro rfl
        exact hi (List.mem_append_right _ (List.mem_singleton_self _))
      have hiv : i ∉ st.visited := fun hm => hi (List.mem_append_left _ hm)
      simpa [hinb] using h.parentUnvisited i hiv
    · intro i hi hiroot
      rcases List.mem_append.1 hi with hiv | hinb
      · obtain ⟨j, hj, hpj, hlt⟩ := h.parentOrder i hiv hiroot
        have hinb : i ≠ nb := by rintro rfl; exact hfresh hiv
        refine ⟨j, List.mem_append_left _ hj, by simpa [hinb] using hpj, ?_⟩
        rw [List.indexOf_append_of_mem hj, List.indexOf_append_of_mem hiv]
        exact hlt
      · have hinb : i = nb := List.mem_singleton.1 hinb
        subst hinb
        refine ⟨node, List.mem_append_left _ hnode, by simp, ?_⟩
        rw [List.indexOf_append_of_mem hnode, indexOf_append_fresh hfresh]
        exact (List.indexOf_lt_length).2 hnode
  case isFalse => exact h

lemma bfsFold_inv {mst : ℕ → ℕ → ℚ} {n root node : ℕ} (l : List ℕ)
    (hl : ∀ x ∈ l, x < n) :
    ∀ st : BfsState, node ∈ st.visited → BfsInv n root st →
      BfsInv n root (l.foldl (bfsStep mst node) st) := by
  induction l with
  | nil => exact fun st _ h => h
  | cons nb l ih =>
    intro st hnode h
    have hnb : nb < n := hl nb (List.mem_cons_self _ _)
    have hnode' : node ∈ (bfsStep mst node st nb).visited :=
      bfsStep_subset mst node st nb hnode
    exact ih (fun x hx => hl x (List.mem_cons_of_mem _ hx))
      _ hnode' (bfsStep_inv hnb hnode h)

lemma bfsLoop_inv {mst : ℕ → ℕ → ℚ} {n root : ℕ} (fuel : ℕ) :
    ∀ s : BfsState, BfsInv n root s → BfsInv n root (bfsLoop mst n fuel s) := by
  induction fuel with
  | zero => exact fun s h => h
  | succ fuel ih =>
    intro s h
    rcases s with ⟨v, p, q⟩
    match hq : q with
    | [] => exact h
    | node :: rest =>
      have hnode : node ∈ v := h.queueSub node (List.mem_cons_self _ _)
      have hrest : BfsInv n root ⟨v, p, rest⟩ :=
        { h with queueSub := fun x hx => h.queueSub x (List.mem_cons_of_mem _ hx) }
      exact ih _ (bfsFold_inv (List.range n) (fun x hx => List.mem_range.1 hx)
        _ hnode hrest)

lemma argminFold (ts : List ℤ) (l : List ℕ) :
    ∀ b : ℕ,
      (l.foldl (fun best i => if tsGet ts i < tsGet ts best then i else best) b = b ∨
        l.foldl (fun best i => if tsGet ts i < tsGet ts best then i else best) b ∈ l) ∧
      tsGet ts (l.foldl (fun best i => if tsGet ts i < tsGet ts best then i else best) b) ≤
        tsGet ts b ∧
      (∀ i ∈ l,
        tsGet ts (l.foldl (fun best i => if tsGet ts i < tsGet ts best then i else best) b) ≤
          tsGet ts i) := by
  induction l with
  | nil => exact fun b => ⟨Or.inl rfl, le_refl _, fun i hi => absurd hi (List.not_mem_nil _)⟩
  | cons x xs ih =>
    intro b
    simp only [List.foldl_cons]
    by_cases hx : tsGet ts x < tsGet ts b
    · rw [if_pos hx]
      obtain ⟨hmem, hle, hall⟩ := ih x
      refine ⟨?_, le_trans hle (le_of_lt hx), ?_⟩
      · rcases hmem with h | h
        · exact Or.inr (by rw [h]; exact List.mem_cons_self _ _)
        · exact Or.inr (List.mem_cons_of_mem _ h)
      · intro i hi
        rcases List.mem_cons.1 hi with rfl | hi
        · exact hle
        · exact hall i hi
    · rw [if_neg hx]
      obtain ⟨hmem, hle, hall⟩ := ih b
      refine ⟨?_, hle, ?_⟩
      · rcases hmem with h | h
        · exact Or.inl h
        · exact Or.inr (List.mem_cons_of_mem _ h)
      · intro i hi
        rcases List.mem_cons.1 hi with rfl | hi
        · exact le_trans hle (not_lt.1 hx)
        · exact hall i hi

lemma argminIdx_lt {ts : List ℤ} (h : 0 < ts.length) : argminIdx ts < ts.length := by
  unfold argminIdx
  obtain ⟨hmem, -, -⟩ := argminFold ts (List.range ts.length) 0
  rcases hmem with heq | hmem
  · rw [heq]; exact h
  · exact List.mem_range.1 hmem

lemma argminIdx_min {ts : List ℤ} (i : ℕ) (hi : i < ts.length) :
    tsGet ts (argminIdx ts) ≤ tsGet ts i := by
  unfold argminIdx
  obtain ⟨-, -, hall⟩ := argminFold ts (List.range ts.length) 0
  exact hall i (List.mem_range.2 hi)

lemma bfsRun_inv {mst : ℕ → ℕ → ℚ} {ts : List ℤ} (h : 0 < ts.length) :
    BfsInv ts.length (argminIdx ts) (bfsRun mst ts) := by
  unfold bfsRun
  refine bfsLoop_inv _ _ ?_
  refine ⟨List.nodup_singleton _, ?_, ?_, ⟨[], rfl⟩, rfl, fun _ _ => rfl, ?_⟩
  · intro x hx
    rw [List.mem_singleton.1 hx]
    exact argminIdx_lt h
  · exact fun x hx => hx
  · intro i hi hroot
    exact absurd (List.mem_singleton.1 hi) hroot

lemma reach_within {n root : ℕ} {s : BfsState} (h : BfsInv n root s) :
    ∀ k : ℕ, ∀ i ∈ s.visited, s.visited.indexOf i ≤ k →
      ∃ m ≤ k, iterParent (attachParent s root) m i = some root := by
  intro k
  induction k with
  | zero =>
    intro i hi hidx
    obtain ⟨rest, hv⟩ := h.headRoot
    have : i = root := by
      by_contra hne
      obtain ⟨j, hj, hpj, hlt⟩ := h.parentOrder i hi hne
      omega
    subst this
    exact ⟨0, le_refl _, rfl⟩
  | succ k ih =>
    intro i hi hidx
    by_cases hroot : i = root
    · subst hroot; exact ⟨0, Nat.zero_le _, rfl⟩
    · obtain ⟨j, hj, hpj, hlt⟩ := h.parentOrder i hi hroot
      have hjidx : s.visited.indexOf j ≤ k := by
        have := hidx; omega
      obtain ⟨m, hm, hiter⟩ := ih j hj hjidx
      refine ⟨m + 1, Nat.succ_le_succ hm, ?_⟩
      show (attachParent s root i).bind (iterParent (attachParent s root) m) = some root
      rw [attachParent, if_pos hi, hpj]
      exact hiter

/-- C1: `build_phylogeny_tree` produces a rooted spanning tree: the root is
the first index of minimal timestamp and the unique index with parent
`None`; every other index gets exactly one parent index below `n`; parent
pointers from any index reach the root within `n` steps; and every index
the BFS did not visit is attached directly to the root. -/
theorem phylogeny_tree_rooted_spanning (mst : ℕ → ℕ → ℚ) (ts : List ℤ)
    (hn : 0 < ts.length) :
    argminIdx ts < ts.length ∧
    (∀ i < ts.length, tsGet ts (argminIdx ts) ≤ tsGet ts i) ∧
    phyloParent mst ts (argminIdx ts) = none ∧
    (∀ i < ts.length, i ≠ argminIdx ts →
      ∃ j < ts.length, phyloParent mst ts i = some j) ∧
    (∀ i < ts.length, ∃ m ≤ ts.length,
      iterParent (phyloParent mst ts) m i = some (argminIdx ts)) ∧
    (∀ i < ts.length, i ∉ (bfsRun mst ts).visited →
      phyloParent mst ts i = some (argminIdx ts)) := by
  have hinv := @bfsRun_inv mst ts hn
  set s := bfsRun mst ts with hs
  set root := argminIdx ts with hroot
  have hrootmem : root ∈ s.visited := by
    obtain ⟨rest, hv⟩ := hinv.headRoot
    rw [hv]; exact List.mem_cons_self _ _
  have hlen : s.visited.length ≤ ts.length := by
    have hsub : s.visited ⊆ List.range ts.length := by
      intro x hx
      exact List.mem_range.2 (hinv.bounded x hx)
    have := (hinv.nodup.subperm hsub).length_le
    simpa using this
  refine ⟨argminIdx_lt hn, fun i hi => argminIdx_min i hi, ?_, ?_, ?_, ?_⟩
  · show attachParent s root root = none
    rw [attachParent, if_pos hrootmem]
    exact hinv.parentRoot
  · intro i hi hne
    show ∃ j < ts.length, attachParent s root i = some j
    by_cases hmem : i ∈ s.visited
    · obtain ⟨j, hj, hpj, -⟩ := hinv.parentOrder i hmem hne
      exact ⟨j, hinv.bounded j hj, by rw [attachParent, if_pos hmem]; exact hpj⟩
    · exact ⟨root, argminIdx_lt hn, by rw [attachParent, if_neg hmem]⟩
  · intro i hi
    by_cases hmem : i ∈ s.visited
    · have hidx : s.visited.indexOf i ≤ ts.length - 1 := by
        have := (List.indexOf_lt_length).2 hmem
        omega
      obtain ⟨m, hm, hiter⟩ := reach_within hinv (ts.length - 1) i hmem hidx
      exact ⟨m, by omega, hiter⟩
    · refine ⟨1, hn, ?_⟩
      show (attachParent s root i).bind (iterParent (attachParent s root) 0) = some root
      rw [attachParent, if_neg hmem]
      rfl
  · intro i hi hmem
    show attachParent s root i = some root
    rw [attachParent, if_neg hmem]

/-- MST with a single positive edge 0–1 (witness fixture). -/
def mstOneEdge : ℕ → ℕ → ℚ := fun i j => if i = 0 ∧ j = 1 then 1 / 2 else 0

/-- Two items five seconds apart (witness fixture). -/
def tsPair : List ℤ := [0, 5]

/-- Witness for C1 at a concrete two-node input with one MST edge. -/
theorem phylogeny_tree_rooted_spanning_witness :
    argminIdx tsPair < tsPair.length ∧
    (∀ i < tsPair.length, tsGet tsPair (argminIdx tsPair) ≤ tsGet tsPair i) ∧
    phyloParent mstOneEdge tsPair (argminIdx tsPair) = none ∧
    (∀ i < tsPair.length, i ≠ argminIdx tsPair →
      ∃ j < tsPair.length, phyloParent mstOneEdge tsPair i = some j) ∧
    (∀ i < tsPair.length, ∃ m ≤ tsPair.length,
      iterParent (phyloParent mstOneEdge tsPair) m i = some (argminIdx tsPair)) ∧
    (∀ i < tsPair.length, i ∉ (bfsRun mstOneEdge tsPair).visited →
      phyloParent mstOneEdge tsPair i = some (argminIdx tsPair)) :=
  phylogeny_tree_rooted_spanning mstOneEdge tsPair (by decide)

/-- The two closure facts the C9 argument needs about a BFS state:
every visited and every queued node satisfies `P`. -/
def ClosedUnder (P : ℕ → Bool) (s : BfsState) : Prop :=
  (∀ x ∈ s.visited, P x = true) ∧ (∀ x ∈ s.queue, P x = true)

lemma bfsStep_closedUnder {mst : ℕ → ℕ → ℚ} {node nb : ℕ} {P : ℕ → Bool}
    {st : BfsState}
    (hclosed : ∀ a b, P a = true → mstAdj mst a b = true → P b = true)
    (hnode : P node = true) (h : ClosedUnder P st) :
    ClosedUnder P (bfsStep mst node st nb) := by
  unfold bfsStep
  split
  case isTrue hcond =>
    have hPnb : P nb = true := hclosed node nb hnode hcond.1
    constructor
    · intro x hx
      rcases List.mem_append.1 hx with hx | hx
      · exact h.1 x hx
      · rw [List.mem_singleton.1 hx]; exact hPnb
    · intro x hx
      rcases List.mem_append.1 hx with hx | hx
      · exact h.2 x hx
      · rw [List.mem_singleton.1 hx]; exact hPnb
  case isFalse => exact h

lemma bfsFold_closedUnder {mst : ℕ → ℕ → ℚ} {node : ℕ} {P : ℕ → Bool} (l : List ℕ)
    (hclosed : ∀ a b, P a = true → mstAdj mst a b = true → P b = true)
    (hnode : P node = true) :
    ∀ st : BfsState, ClosedUnder P st →
      ClosedUnder P (l.foldl (bfsStep mst node) st) := by
  induction l with
  | nil => exact fun st h => h
  | cons nb l ih =>
    intro st h
    exact ih _ (bfsStep_closedUnder hclosed hnode h)

lemma bfsLoop_closedUnder {mst : ℕ → ℕ → ℚ} {n : ℕ} {P : ℕ → Bool} (fuel : ℕ)
    (hclosed : ∀ a b, P a = true → mstAdj mst a b = true → P b = true) :
    ∀ s : BfsState, ClosedUnder P s → ClosedUnder P (bfsLoop mst n fuel s) := by
  induction fuel with
  | zero => exact fun s h => h
  | succ fuel ih =>
    intro s h
    rcases s with ⟨v, p, q⟩
    match q with
    | [] => exact h
    | node :: rest =>
      have hnode : P node = true := h.2 node (List.mem_cons_self _ _)
      have hrest : ClosedUnder P ⟨v, p, rest⟩ :=
        ⟨h.1, fun x hx => h.2 x (List.mem_cons_of_mem _ hx)⟩
      exact ih _ (bfsFold_closedUnder (List.range n) hclosed hnode _ hrest)

lemma bfsRun_visited_closed {mst : ℕ → ℕ → ℚ} {ts : List ℤ} {P : ℕ → Bool}
    (hroot : P (argminIdx ts) = true)
    (hclosed : ∀ a b, P a = true → mstAdj mst a b = true → P b = true) :
    ∀ x ∈ (bfsRun mst ts).visited, P x = true := by
  have h := @bfsLoop_closedUnder mst ts.length P (ts.length + 1) hclosed
    ⟨[argminIdx ts], fun _ => none, [argminIdx ts]⟩
    ⟨fun x hx => by rw [List.mem_singleton.1 hx]; exact hroot,
      fun x hx => by rw [List.mem_singleton.1 hx]; exact hroot⟩
  exact h.1

/-- C9: the BFS of `build_phylogeny_tree` follows only symmetrized-MST
entries of strictly positive weight, so when two items are at pairwise
distance exactly zero and the MST edge joining them is stored at weight
zero — with the zero edge the only MST connection from the root's side
into the far side `S` — every node of the far side goes unvisited and the
fallback attaches it directly to the root, not to its zero-distance
neighbor. -/
theorem zero_distance_edge_invisible_to_bfs
    (mst sim : ℕ → ℕ → ℚ) (ts : List ℤ) (S : ℕ → Bool) (u v : ℕ)
    (huv : u ≠ v)
    (hdist : buildConstrainedGraph sim ts u v = some 0)
    (hzero : mst u v + mst v u = 0)
    (hu : S u = false) (hv : S v = true)
    (hroot : S (argminIdx ts) = false)
    (hcut : ∀ a b, S a = false → S b = true → mst a b + mst b a ≤ 0) :
    (∀ i j, mstAdj mst i j = true ↔ 0 < mst i j + mst j i) ∧
    (∀ b, S b = true → b ∉ (bfsRun mst ts).visited ∧
      phyloParent mst ts b = some (argminIdx ts)) ∧
    v ∉ (bfsRun mst ts).visited ∧
    phyloParent mst ts v = some (argminIdx ts) := by
  have hadj : ∀ i j, mstAdj mst i j = true ↔ 0 < mst i j + mst j i := by
    intro i j
    unfold mstAdj
    exact decide_eq_true_iff
  have hclosed : ∀ a b, (!S a) = true → mstAdj mst a b = true → (!S b) = true := by
    intro a b ha hab
    rcases hSb : S b with _ | _
    · rfl
    · have hle := hcut a b (by simpa using ha) hSb
      have := (hadj a b).1 hab
      exact absurd this (not_lt.2 hle)
  have hvis := @bfsRun_visited_closed mst ts (fun x => !S x)
    (by simpa using hroot) hclosed
  have hfar : ∀ b, S b = true → b ∉ (bfsRun mst ts).visited ∧
      phyloParent mst ts b = some (argminIdx ts) := by
    intro b hb
    have hnot : b ∉ (bfsRun mst ts).visited := by
      intro hmem
      have := hvis b hmem
      simp [hb] at this
    refine ⟨hnot, ?_⟩
    show attachParent (bfsRun mst ts) (argminIdx ts) b = some (argminIdx ts)
    rw [attachParent, if_neg hnot]
  exact ⟨hadj, hfar, hfar v hv⟩

/-- All-zero MST matrix (witness fixture: scipy stores a zero-distance
edge as a zero entry, and `toarray()` shows it as 0). -/
def mstZero : ℕ → ℕ → ℚ := fun _ _ => 0

/-- Constant similarity 1 (identical normalized embeddings). -/
def simOne : ℕ → ℕ → ℚ := fun _ _ => 1

/-- Two items with identical timestamps (witness fixture). -/
def tsTwin : List ℤ := [0, 0]

/-- Far side of the zero cut: just index 1 (witness fixture). -/
def farSide : ℕ → Bool := fun i => i == 1

/-- Witness for C9 at a concrete two-node input whose unique MST edge has
weight zero. -/
theorem zero_distance_edge_invisible_to_bfs_witness :
    (∀ i j, mstAdj mstZero i j = true ↔ 0 < mstZero i j + mstZero j i) ∧
    (∀ b, farSide b = true → b ∉ (bfsRun mstZero tsTwin).visited ∧
      phyloParent mstZero tsTwin b = some (argminIdx tsTwin)) ∧
    1 ∉ (bfsRun mstZero tsTwin).visited ∧
    phyloParent mstZero tsTwin 1 = some (argminIdx tsTwin) :=
  zero_distance_edge_invisible_to_bfs mstZero simOne tsTwin farSide 0 1
    (by decide)
    (by norm_num [buildConstrainedGraph, tsGet, simOne, tsTwin, TEMPORAL_THRESHOLD,
      SIMILARITY_THRESHOLD])
    (by norm_num [mstZero])
    (by decide) (by decide) (by decide)
    (fun a b _ _ => by norm_num [mstZero])

/-! ## cluster.py — `run_clustering` post-processing

`hdbscan.HDBSCAN(...).fit_predict(coords)` is an external collaborator:
its per-item label array enters as `labels : List ℤ` (`-1` = noise).  The
semantic labeler (CLIP / keyword extraction over the member items) enters
as `labelFn` over the member index list. -/

/-- A cluster record `{id, label, centroid, size}`. -/
structure Cluster where
  id : ℤ
  label : String
  centroid : ℚ × ℚ
  size : ℕ

/-- `sorted(set(labels) - {-1})`. -/
def uniqueSortedLabels (labels : List ℤ) : List ℤ :=
  List.insertionSort (· ≤ ·) ((labels.filter (fun l => l != -1)).dedup)

/-- Indices of the boolean mask `labels == cluster_id`. -/
def memberIndices (labels : List ℤ) (cid : ℤ) : List ℕ :=
  (List.range labels.length).filter (fun i => labels.getD i 0 == cid)

/-- Coordinate lookup `coords[i]`. -/
def coordsGet (coords : List (ℚ × ℚ)) (i : ℕ) : ℚ × ℚ := coords.getD i (0, 0)

/-- One iteration of the `for cluster_id in sorted(unique_labels):` loop:
the cluster record with centroid `coords[mask].mean(axis=0)` and size
`mask.sum()`. -/
def mkCluster (coords : List (ℚ × ℚ)) (labels : List ℤ)
    (labelFn : List ℕ → String) (cid : ℤ) : Cluster :=
  { id := cid,
    label := labelFn (memberIndices labels cid),
    centroid :=
      ((((memberIndices labels cid).map (fun i => (coordsGet coords i).1)).sum /
          ((memberIndices labels cid).length : ℚ)),
       (((memberIndices labels cid).map (fun i => (coordsGet coords i).2)).sum /
          ((memberIndices labels cid).length : ℚ))),
    size := (memberIndices labels cid).length }

/-- `run_clustering` minus the external calls: one cluster record per
sorted non-noise label. -/
def runClustering (coords : List (ℚ × ℚ)) (labels : List ℤ)
    (labelFn : List ℕ → String) : List Cluster :=
  (uniqueSortedLabels labels).map (mkCluster coords labels labelFn)

lemma mem_uniqueSortedLabels {labels : List ℤ} {x : ℤ} :
    x ∈ uniqueSortedLabels labels ↔ x ∈ labels ∧ x ≠ -1 := by
  unfold uniqueSortedLabels
  rw [(List.perm_insertionSort _ _).mem_iff, List.mem_dedup, List.mem_filter]
  simp

lemma nodup_uniqueSortedLabels (labels : List ℤ) :
    (uniqueSortedLabels labels).Nodup :=
  (List.perm_insertionSort _ _).nodup_iff.2 (List.nodup_dedup _)

lemma length_memberIndices (labels : List ℤ) (cid : ℤ) :
    (memberIndices labels cid).length = labels.countP (fun l => l == cid) := by
  unfold memberIndices
  rw [← List.countP_eq_length_filter]
  induction labels with
  | nil => simp
  | cons x xs ih =>
    simp only [List.length_cons]
    rw [List.range_succ_eq_map, List.countP_cons, List.countP_map, List.countP_cons]
    have hpred : ((fun i => (x :: xs).getD i 0 == cid) ∘ Nat.succ) =
        (fun i => xs.getD i 0 == cid) := rfl
    rw [hpred, ih]
    rfl

lemma sum_counts_uniqueSorted (labels : List ℤ) :
    ((uniqueSortedLabels labels).map
      (fun cid => labels.countP (fun l => l == cid))).sum =
    labels.countP (fun l => l != -1) := by
  set m := labels.filter (fun l => l != -1) with hm
  have hcount : ∀ cid ∈ uniqueSortedLabels labels,
      labels.countP (fun l => l == cid) = m.count cid := by
    intro cid hc
    have hne : cid ≠ -1 := (mem_uniqueSortedLabels.1 hc).2
    rw [hm, List.count, List.countP_filter]
    apply List.countP_congr
    intro a _
    constructor
    · intro ha
      have : a = cid := by simpa using ha
      subst this
      simpa using hne
    · intro ha
      simpa using (by simpa using ha : a = cid ∧ a ≠ -1).1
  rw [List.map_congr_left hcount]
  have hnodup := nodup_uniqueSortedLabels labels
  have hmemiff : ∀ x, x ∈ uniqueSortedLabels labels ↔ x ∈ m := by
    intro x
    rw [mem_uniqueSortedLabels, hm, List.mem_filter]
    simp
  have htofin : (uniqueSortedLabels labels).toFinset = m.toFinset := by
    ext x
    simp only [List.mem_toFinset]
    exact hmemiff x
  rw [← List.sum_toFinset _ hnodup, htofin]
  have hcoe : ∀ x ∈ m.toFinset, m.count x = Multiset.count x (↑m : Multiset ℤ) := by
    intro x _
    rw [Multiset.coe_count]
  rw [Finset.sum_congr rfl hcoe]
  have hsum := Multiset.toFinset_sum_count_eq (↑m : Multiset ℤ)
  rw [Multiset.coe_card] at hsum
  have hgoal : ∑ x ∈ m.toFinset, Multiset.count x (↑m : Multiset ℤ) = m.length := hsum
  rw [hgoal, hm, ← List.countP_eq_length_filter]

/-- C3: `run_clustering` partitions the non-noise items exactly: each
index with a non-noise label matches exactly one cluster record (id = its
label), no record carries the noise id, record sizes are the member
counts and sum to `total - noise`, and each record's centroid times its
size is the member coordinate sum (the mean over a nonempty member set). -/
theorem clustering_partitions_non_noise (coords : List (ℚ × ℚ)) (labels : List ℤ)
    (labelFn : List ℕ → String) (hlen : coords.length = labels.length) :
    (∀ i < labels.length, labels.getD i 0 ≠ -1 →
      ((runClustering coords labels labelFn).filter
        (fun c => c.id == labels.getD i 0)).length = 1) ∧
    (∀ c ∈ runClustering coords labels labelFn,
      c.id ≠ -1 ∧ 0 < c.size ∧ c.size = labels.countP (fun l => l == c.id)) ∧
    ((runClustering coords labels labelFn).map (fun c => c.size)).sum +
      labels.countP (fun l => l == -1) = labels.length ∧
    (∀ c ∈ runClustering coords labels labelFn,
      (c.size : ℚ) * c.centroid.1 =
        ((memberIndices labels c.id).map (fun i => (coordsGet coords i).1)).sum ∧
      (c.size : ℚ) * c.centroid.2 =
        ((memberIndices labels c.id).map (fun i => (coordsGet coords i).2)).sum) := by
  refine ⟨?_, ?_, ?_, ?_⟩
  · intro i hi hne
    have hgd : labels.getD i 0 ∈ labels := by
      rw [List.getD_eq_getElem labels 0 hi]
      exact List.getElem_mem hi
    have hmem : labels.getD i 0 ∈ uniqueSortedLabels labels :=
      mem_uniqueSortedLabels.2 ⟨hgd, hne⟩
    unfold runClustering
    rw [List.filter_map, List.length_map]
    have hpred : ((fun c : Cluster => c.id == labels.getD i 0) ∘
        mkCluster coords labels labelFn) =
        fun cid => cid == labels.getD i 0 := rfl
    rw [hpred, ← List.countP_eq_length_filter]
    exact List.count_eq_one_of_mem (nodup_uniqueSortedLabels labels) hmem
  · intro c hc
    unfold runClustering at hc
    obtain ⟨cid, hcid, rfl⟩ := List.mem_map.1 hc
    obtain ⟨hmem, hne⟩ := mem_uniqueSortedLabels.1 hcid
    refine ⟨hne, ?_, ?_⟩
    · show 0 < (memberIndices labels cid).length
      rw [length_memberIndices]
      exact List.countP_pos_iff.2 ⟨cid, hmem, by simp⟩
    · exact length_memberIndices labels cid
  · unfold runClustering
    rw [List.map_map]
    have hmap : ((uniqueSortedLabels labels).map
        ((fun c : Cluster => c.size) ∘ mkCluster coords labels labelFn)).sum =
        ((uniqueSortedLabels labels).map
          (fun cid => labels.countP (fun l => l == cid))).sum := by
      congr 1
      apply List.map_congr_left
      intro cid _
      exact length_memberIndices labels cid
    rw [hmap, sum_counts_uniqueSorted]
    have hsplit := List.length_eq_countP_add_countP (fun l : ℤ => l == -1) labels
    have hflip : labels.countP (fun l => l != -1) =
        labels.countP (fun a : ℤ => decide ¬(a == -1) = true) := by
      apply List.countP_congr
      intro a _
      simp
    omega
  · intro c hc
    unfold runClustering at hc
    obtain ⟨cid, hcid, rfl⟩ := List.mem_map.1 hc
    obtain ⟨hmem, hne⟩ := mem_uniqueSortedLabels.1 hcid
    have hpos : 0 < (memberIndices labels cid).length := by
      rw [length_memberIndices]
      exact List.countP_pos_iff.2 ⟨cid, hmem, by simp⟩
    have hne0 : ((memberIndices labels cid).length : ℚ) ≠ 0 := by
      exact_mod_cast Nat.pos_iff_ne_zero.1 hpos
    constructor
    · show ((memberIndices labels cid).length : ℚ) *
        (((memberIndices labels cid).map (fun i => (coordsGet coords i).1)).sum /
          ((memberIndices labels cid).length : ℚ)) =
        ((memberIndices labels cid).map (fun i => (coordsGet coords i).1)).sum
      field_simp
    · show ((memberIndices labels cid).length : ℚ) *
        (((memberIndices labels cid).map (fun i => (coordsGet coords i).2)).sum /
          ((memberIndices labels cid).length : ℚ)) =
        ((memberIndices labels cid).map (fun i => (coordsGet coords i).2)).sum
      field_simp

/-- Concrete projected coordinates (witness fixture). -/
def coordsThree : List (ℚ × ℚ) := [(0, 0), (2, 0), (1, 1)]

/-- Concrete HDBSCAN labels: two members of cluster 0 and one noise point
(witness fixture). -/
def labelsThree : List ℤ := [0, 0, -1]

/-- Witness for C3 at a concrete three-item batch. -/
theorem clustering_partitions_non_noise_witness :
    (∀ i < labelsThree.length, labelsThree.getD i 0 ≠ -1 →
      ((runClustering coordsThree labelsThree (fun _ => "x")).filter
        (fun c => c.id == labelsThree.getD i 0)).length = 1) ∧
    (∀ c ∈ runClustering coordsThree labelsThree (fun _ => "x"),
      c.id ≠ -1 ∧ 0 < c.size ∧ c.size = labelsThree.countP (fun l => l == c.id)) ∧
    ((runClustering coordsThree labelsThree (fun _ => "x")).map (fun c => c.size)).sum +
      labelsThree.countP (fun l => l == -1) = labelsThree.length ∧
    (∀ c ∈ runClustering coordsThree labelsThree (fun _ => "x"),
      (c.size : ℚ) * c.centroid.1 =
        ((memberIndices labelsThree c.id).map (fun i => (coordsGet coordsThree i).1)).sum ∧
      (c.size : ℚ) * c.centroid.2 =
        ((memberIndices labelsThree c.id).map (fun i => (coordsGet coordsThree i).2)).sum) :=
  clustering_partitions_non_noise coordsThree labelsThree (fun _ => "x") (by decide)

/-! ## phylogeny.py — `generate_species`

`datetime.fromtimestamp(ts).strftime("%Y-%m")` is an external
collaborator (local-timezone calendar conversion); it enters as
`fmtMonth : ℤ → String`.  The `defaultdict(list)` grouping preserves key
first-insertion order, modelled by an association list. -/

/-- An item as consumed by `generate_species`. -/
structure SpItem where
  id : String
  cluster : ℤ
  timestamp : ℤ

/-- A species record. -/
structure Species where
  id : String
  cluster_id : ℤ
  name : String
  date_range : String
  min_timestamp : ℤ
  max_timestamp : ℤ
  centroid : ℚ × ℚ
  count : ℕ
  item_ids : List String

/-- `cluster_items[item["cluster"]].append(item)`: append to the group of
the item's cluster, or open a new group at the end (defaultdict key
insertion order). -/
def addToGroup : List (ℤ × List SpItem) → SpItem → List (ℤ × List SpItem)
  | [], it => [(it.cluster, [it])]
  | (k, l) :: rest, it =>
    if k = it.cluster then (k, l ++ [it]) :: rest
    else (k, l) :: addToGroup rest it

/-- The grouping loop of `generate_species`: only items with
`cluster >= 0` are grouped. -/
def groupByCluster (items : List SpItem) : List (ℤ × List SpItem) :=
  items.foldl (fun acc it => if 0 ≤ it.cluster then addToGroup acc it else acc) []

/-- `cluster_map = {c["id"]: c for c in clusters}` lookup; later clusters
overwrite earlier ones with the same id, as in a Python dict
comprehension. -/
def clusterFind (clusters : List Cluster) (cid : ℤ) : Option Cluster :=
  clusters.reverse.find? (fun c => c.id == cid)

/-- `min(timestamps)` over the (always nonempty) member list. -/
def minTimestampOf (its : List SpItem) : ℤ :=
  match its with
  | [] => 0
  | x :: xs => xs.foldl (fun a it => min a it.timestamp) x.timestamp

/-- `max(timestamps)` over the (always nonempty) member list. -/
def maxTimestampOf (its : List SpItem) : ℤ :=
  match its with
  | [] => 0
  | x :: xs => xs.foldl (fun a it => max a it.timestamp) x.timestamp

/-- One species record of `generate_species`. -/
def mkSpecies (fmtMonth : ℤ → String) (cid : ℤ) (its : List SpItem)
    (c : Cluster) : Species :=
  { id := "species_" ++ toString cid,
    cluster_id := cid,
    name := c.label,
    date_range :=
      if fmtMonth (minTimestampOf its) = fmtMonth (maxTimestampOf its) then
        fmtMonth (minTimestampOf its)
      else fmtMonth (minTimestampOf its) ++ " → " ++ fmtMonth (maxTimestampOf its),
    min_timestamp := minTimestampOf its,
    max_timestamp := maxTimestampOf its,
    centroid := c.centroid,
    count := its.length,
    item_ids := its.map (fun it => it.id) }

/-- `generate_species`: group by cluster, skip cluster ids missing from
the cluster map (`if cluster_id not in cluster_map: continue`), and sort
ascending by minimum timestamp (Python's stable `list.sort`). -/
def generateSpecies (fmtMonth : ℤ → String) (items : List SpItem)
    (clusters : List Cluster) : List Species :=
  List.insertionSort (fun a b => a.min_timestamp ≤ b.min_timestamp)
    ((groupByCluster items).filterMap
      (fun g => (clusterFind clusters g.1).map (mkSpecies fmtMonth g.1 g.2)))

instance : IsTotal Species (fun a b => a.min_timestamp ≤ b.min_timestamp) :=
  ⟨fun a b => le_total _ _⟩

instance : IsTrans Species (fun a b => a.min_timestamp ≤ b.min_timestamp) :=
  ⟨fun _ _ _ hab hbc => le_trans hab hbc⟩

lemma addToGroup_keys (acc : List (ℤ × List SpItem)) (it : SpItem) :
    (addToGroup acc it).map Prod.fst =
      if it.cluster ∈ acc.map Prod.fst then acc.map Prod.fst
      else acc.map Prod.fst ++ [it.cluster] := by
  induction acc with
  | nil => simp [addToGroup]
  | cons g rest ih =>
    rcases g with ⟨k, l⟩
    simp only [addToGroup]
    by_cases hk : k = it.cluster
    · rw [if_pos hk]
      subst hk
      simp
    · rw [if_neg hk, List.map_cons, ih, List.map_cons]
      by_cases hmem : it.cluster ∈ rest.map Prod.fst
      · rw [if_pos hmem, if_pos (List.mem_cons_of_mem _ hmem)]
      · have hnotmem : it.cluster ∉ k :: rest.map Prod.fst := by
          rw [List.mem_cons]
          rintro (h | h)
          · exact hk h.symm
          · exact hmem h
        rw [if_neg hmem, if_neg hnotmem, List.cons_append]

lemma addToGroup_mem {acc : List (ℤ × List SpItem)} (hnd : (acc.map Prod.fst).Nodup)
    (it : SpItem) (g : ℤ × List SpItem) :
    g ∈ addToGroup acc it ↔
      (g ∈ acc ∧ g.1 ≠ it.cluster) ∨
      (it.cluster ∉ acc.map Prod.fst ∧ g = (it.cluster, [it])) ∨
      (∃ l, (it.cluster, l) ∈ acc ∧ g = (it.cluster, l ++ [it])) := by
  induction acc with
  | nil =>
    constructor
    · intro h
      exact Or.inr (Or.inl ⟨by simp, List.mem_singleton.1 h⟩)
    · rintro (⟨h, -⟩ | ⟨-, rfl⟩ | ⟨l, hl, -⟩)
      · exact absurd h (List.not_mem_nil _)
      · exact List.mem_singleton_self _
      · exact absurd hl (List.not_mem_nil _)
  | cons hd rest ih =>
    rcases hd with ⟨k, l⟩
    rw [List.map_cons] at hnd
    have hknd : k ∉ rest.map Prod.fst := (List.nodup_cons.1 hnd).1
    have hrestnd : (rest.map Prod.fst).Nodup := (List.nodup_cons.1 hnd).2
    simp only [addToGroup]
    by_cases hk : k = it.cluster
    · rw [if_pos hk]
      subst hk
      rw [List.mem_cons]
      constructor
      · rintro (rfl | hg)
        · exact Or.inr (Or.inr ⟨l, List.mem_cons_self _ _, rfl⟩)
        · refine Or.inl ⟨List.mem_cons_of_mem _ hg, ?_⟩
          intro hgk
          exact hknd (hgk ▸ List.mem_map_of_mem Prod.fst hg)
      · rintro (⟨hg, hne⟩ | ⟨hnk, rfl⟩ | ⟨l2, hl2, rfl⟩)
        · rcases List.mem_cons.1 hg with rfl | hg
          · exact absurd rfl hne
          · exact Or.inr hg
        · exact absurd (by rw [List.map_cons]; exact List.mem_cons_self _ _) hnk
        · rcases List.mem_cons.1 hl2 with heq | hl2
          · have hll : l2 = l := (Prod.ext_iff.1 heq).2
            subst hll
            exact Or.inl rfl
          · exact absurd (List.mem_map_of_mem Prod.fst hl2) hknd
    · rw [if_neg hk, List.mem_cons, ih hrestnd]
      constructor
      · rintro (rfl | (⟨hg, hne⟩ | ⟨hnk, rfl⟩ | ⟨l2, hl2, rfl⟩))
        · exact Or.inl ⟨List.mem_cons_self _ _, hk⟩
        · exact Or.inl ⟨List.mem_cons_of_mem _ hg, hne⟩
        · refine Or.inr (Or.inl ⟨?_, rfl⟩)
          rw [List.map_cons, List.mem_cons]
          rintro (h | h)
          · exact hk h.symm
          · exact hnk h
        · exact Or.inr (Or.inr ⟨l2, List.mem_cons_of_mem _ hl2, rfl⟩)
      · rintro (⟨hg, hne⟩ | ⟨hnk, rfl⟩ | ⟨l2, hl2, rfl⟩)
        · rcases List.mem_cons.1 hg with rfl | hg
          · exact Or.inl rfl
          · exact Or.inr (Or.inl ⟨hg, hne⟩)
        · refine Or.inr (Or.inr (Or.inl ⟨?_, rfl⟩))
          intro hmem
          exact hnk (by rw [List.map_cons]; exact List.mem_cons_of_mem _ hmem)
        · rcases List.mem_cons.1 hl2 with heq | hl2
          · exact absurd (Prod.ext_iff.1 heq).1.symm hk
          · exact Or.inr (Or.inr (Or.inr ⟨l2, hl2, rfl⟩))

/-- Invariant of the grouping fold: after processing the prefix `p`, the
accumulator has distinct nonnegative keys in first-appearance order, each
group holds exactly the processed items of its cluster in item order, and
every processed non-noise item's cluster has a group. -/
def GroupsRep (p : List SpItem) (acc : List (ℤ × List SpItem)) : Prop :=
  ((acc.map Prod.fst).Nodup) ∧
  (∀ g ∈ acc, 0 ≤ g.1 ∧ g.2 = p.filter (fun x => x.cluster == g.1) ∧ g.2 ≠ []) ∧
  (∀ x ∈ p, 0 ≤ x.cluster → x.cluster ∈ acc.map Prod.fst)

lemma groupsRep_step {p : List SpItem} {acc : List (ℤ × List SpItem)} {it : SpItem}
    (h : GroupsRep p acc) :
    GroupsRep (p ++ [it]) (if 0 ≤ it.cluster then addToGroup acc it else acc) := by
  obtain ⟨hnd, hent, hcov⟩ := h
  by_cases hc : 0 ≤ it.cluster
  · rw [if_pos hc]
    refine ⟨?_, ?_, ?_⟩
    · rw [addToGroup_keys]
      by_cases hmem : it.cluster ∈ acc.map Prod.fst
      · rw [if_pos hmem]; exact hnd
      · rw [if_neg hmem]
        simp [List.nodup_append, hnd, hmem]
    · intro g hg
      rcases (addToGroup_mem hnd it g).1 hg with ⟨hga, hne⟩ | ⟨hnk, rfl⟩ | ⟨l, hl, rfl⟩
      · obtain ⟨h0, hfil, hne2⟩ := hent g hga
        refine ⟨h0, ?_, hne2⟩
        rw [List.filter_append, ← hfil]
        have hnil : [it].filter (fun x => x.cluster == g.1) = [] := by
          rw [List.filter_eq_nil_iff]
          intro a ha
          rw [List.mem_singleton.1 ha]
          simpa using fun he => hne he.symm
        rw [hnil, List.append_nil]
      · have hpnil : p.filter (fun x => x.cluster == it.cluster) = [] := by
          rw [List.filter_eq_nil_iff]
          intro a ha hbeq
          have hac : a.cluster = it.cluster := by simpa using hbeq
          exact hnk (hac ▸ hcov a ha (hac ▸ hc))
        refine ⟨hc, ?_, by simp⟩
        show [it] = (p ++ [it]).filter (fun x => x.cluster == it.cluster)
        rw [List.filter_append, hpnil, List.nil_append]
        simp [List.filter]
      · obtain ⟨h0, hfil, hne2⟩ := hent (it.cluster, l) hl
        refine ⟨hc, ?_, by simp⟩
        show l ++ [it] = (p ++ [it]).filter (fun x => x.cluster == it.cluster)
        rw [List.filter_append]
        have hl2 : l = p.filter (fun x => x.cluster == it.cluster) := hfil
        rw [← hl2]
        simp [List.filter]
    · intro x hx h0x
      have hsub : acc.map Prod.fst ⊆ (addToGroup acc it).map Prod.fst := by
        rw [addToGroup_keys]
        by_cases hmem : it.cluster ∈ acc.map Prod.fst
        · rw [if_pos hmem]
          exact fun y hy => hy
        · rw [if_neg hmem]
          exact fun y hy => List.mem_append_left _ hy
      rcases List.mem_append.1 hx with hx | hx
      · exact hsub (hcov x hx h0x)
      · rw [List.mem_singleton.1 hx]
        rw [addToGroup_keys]
        by_cases hmem : it.cluster ∈ acc.map Prod.fst
        · rw [if_pos hmem]; exact hmem
        · rw [if_neg hmem]
          exact List.mem_append_right _ (List.mem_singleton_self _)
  · rw [if_neg hc]
    refine ⟨hnd, ?_, ?_⟩
    · intro g hg
      obtain ⟨h0, hfil, hne2⟩ := hent g hg
      refine ⟨h0, ?_, hne2⟩
      rw [List.filter_append, ← hfil]
      have hnil : [it].filter (fun x => x.cluster == g.1) = [] := by
        rw [List.filter_eq_nil_iff]
        intro a ha
        rw [List.mem_singleton.1 ha]
        intro hbeq
        have hac : it.cluster = g.1 := by simpa using hbeq
        exact hc (hac ▸ h0)
      rw [hnil, List.append_nil]
    · intro x hx h0x
      rcases List.mem_append.1 hx with hx | hx
      · exact hcov x hx h0x
      · rw [List.mem_singleton.1 hx] at h0x
        exact absurd h0x hc

lemma groupByCluster_rep (items : List SpItem) :
    GroupsRep items (groupByCluster items) := by
  unfold groupByCluster
  have main : ∀ (l p : List SpItem) (acc : List (ℤ × List SpItem)), GroupsRep p acc →
      GroupsRep (p ++ l)
        (l.foldl (fun acc it => if 0 ≤ it.cluster then addToGroup acc it else acc) acc) := by
    intro l
    induction l with
    | nil =>
      intro p acc h
      simpa using h
    | cons x xs ih =>
      intro p acc h
      rw [List.foldl_cons]
      have hstep := ih (p ++ [x]) _ (groupsRep_step h)
      simpa [List.append_assoc] using hstep
  have h0 : GroupsRep ([] : List SpItem) [] :=
    ⟨List.nodup_nil, fun g hg => absurd hg (List.not_mem_nil _),
      fun x hx => absurd hx (List.not_mem_nil _)⟩
  simpa using main items [] [] h0

lemma foldlMin_spec (xs : List SpItem) :
    ∀ a : ℤ,
      (xs.foldl (fun b it => min b it.timestamp) a = a ∨
        xs.foldl (fun b it => min b it.timestamp) a ∈ xs.map (fun it => it.timestamp)) ∧
      xs.foldl (fun b it => min b it.timestamp) a ≤ a ∧
      ∀ it ∈ xs, xs.foldl (fun b it => min b it.timestamp) a ≤ it.timestamp := by
  induction xs with
  | nil => exact fun a => ⟨Or.inl rfl, le_refl _, fun it h => absurd h (List.not_mem_nil _)⟩
  | cons x xs ih =>
    intro a
    rw [List.foldl_cons]
    obtain ⟨hmem, hle, hall⟩ := ih (min a x.timestamp)
    refine ⟨?_, le_trans hle (min_le_left _ _), ?_⟩
    · rcases hmem with h | h
      · rcases le_total a x.timestamp with hax | hax
        · exact Or.inl (by rw [h, min_eq_left hax])
        · refine Or.inr ?_
          rw [List.map_cons, h, min_eq_right hax]
          exact List.mem_cons_self _ _
      · refine Or.inr ?_
        rw [List.map_cons]
        exact List.mem_cons_of_mem _ h
    · intro it hit
      rcases List.mem_cons.1 hit with rfl | hit
      · exact le_trans hle (min_le_right _ _)
      · exact hall it hit

lemma foldlMax_spec (xs : List SpItem) :
    ∀ a : ℤ,
      (xs.foldl (fun b it => max b it.timestamp) a = a ∨
        xs.foldl (fun b it => max b it.timestamp) a ∈ xs.map (fun it => it.timestamp)) ∧
      a ≤ xs.foldl (fun b it => max b it.timestamp) a ∧
      ∀ it ∈ xs, it.timestamp ≤ xs.foldl (fun b it => max b it.timestamp) a := by
  induction xs with
  | nil => exact fun a => ⟨Or.inl rfl, le_refl _, fun it h => absurd h (List.not_mem_nil _)⟩
  | cons x xs ih =>
    intro a
    rw [List.foldl_cons]
    obtain ⟨hmem, hle, hall⟩ := ih (max a x.timestamp)
    refine ⟨?_, le_trans (le_max_left _ _) hle, ?_⟩
    · rcases hmem with h | h
      · rcases le_total x.timestamp a with hax | hax
        · exact Or.inl (by rw [h, max_eq_left hax])
        · refine Or.inr ?_
          rw [List.map_cons, h, max_eq_right hax]
          exact List.mem_cons_self _ _
      · refine Or.inr ?_
        rw [List.map_cons]
        exact List.mem_cons_of_mem _ h
    · intro it hit
      rcases List.mem_cons.1 hit with rfl | hit
      · exact le_trans (le_max_right _ _) hle
      · exact hall it hit

lemma minTimestampOf_spec {its : List SpItem} (h : its ≠ []) :
    minTimestampOf its ∈ its.map (fun it => it.timestamp) ∧
      ∀ it ∈ its, minTimestampOf its ≤ it.timestamp := by
  match its, h with
  | x :: xs, _ =>
    show (xs.foldl (fun a it => min a it.timestamp) x.timestamp ∈ _) ∧ _
    obtain ⟨hmem, hle, hall⟩ := foldlMin_spec xs x.timestamp
    constructor
    · rcases hmem with heq | hmem
      · rw [List.map_cons, heq]
        exact List.mem_cons_self _ _
      · rw [List.map_cons]
        exact List.mem_cons_of_mem _ hmem
    · intro it hit
      rcases List.mem_cons.1 hit with rfl | hit
      · exact hle
      · exact hall it hit

lemma maxTimestampOf_spec {its : List SpItem} (h : its ≠ []) :
    maxTimestampOf its ∈ its.map (fun it => it.timestamp) ∧
      ∀ it ∈ its, it.timestamp ≤ maxTimestampOf its := by
  match its, h with
  | x :: xs, _ =>
    show (xs.foldl (fun a it => max a it.timestamp) x.timestamp ∈ _) ∧ _
    obtain ⟨hmem, hle, hall⟩ := foldlMax_spec xs x.timestamp
    constructor
    · rcases hmem with heq | hmem
      · rw [List.map_cons, heq]
        exact List.mem_cons_self _ _
      · rw [List.map_cons]
        exact List.mem_cons_of_mem _ hmem
    · intro it hit
      rcases List.mem_cons.1 hit with rfl | hit
      · exact hle
      · exact hall it hit

lemma clusterFind_isSome_iff {clusters : List Cluster} {cid : ℤ} :
    (clusterFind clusters cid).isSome = true ↔ ∃ c ∈ clusters, c.id = cid := by
  unfold clusterFind
  rw [List.find?_isSome]
  constructor
  · rintro ⟨c, hc, hp⟩
    exact ⟨c, List.mem_reverse.1 hc, by simpa using hp⟩
  · rintro ⟨c, hc, hp⟩
    exact ⟨c, List.mem_reverse.2 hc, by simpa using hp⟩

lemma clusterFind_id {clusters : List Cluster} {cid : ℤ} {c : Cluster}
    (h : clusterFind clusters cid = some c) : c ∈ clusters ∧ c.id = cid := by
  have hmem := List.mem_of_find?_eq_some h
  have hp := List.find?_some h
  exact ⟨List.mem_reverse.1 hmem, by simpa using hp⟩

lemma mem_generateSpecies {fmtMonth : ℤ → String} {items : List SpItem}
    {clusters : List Cluster} {s : Species} :
    s ∈ generateSpecies fmtMonth items clusters ↔
      ∃ g ∈ groupByCluster items, ∃ c, clusterFind clusters g.1 = some c ∧
        s = mkSpecies fmtMonth g.1 g.2 c := by
  unfold generateSpecies
  rw [(List.perm_insertionSort _ _).mem_iff, List.mem_filterMap]
  constructor
  · rintro ⟨g, hg, hmap⟩
    rcases Option.map_eq_some'.1 hmap with ⟨c, hc, hs⟩
    exact ⟨g, hg, c, hc, hs.symm⟩
  · rintro ⟨g, hg, c, hc, rfl⟩
    refine ⟨g, hg, ?_⟩
    rw [hc]
    rfl

lemma filterMap_clusterIds (fmtMonth : ℤ → String) (clusters : List Cluster)
    (gs : List (ℤ × List SpItem)) :
    (gs.filterMap
      (fun g => (clusterFind clusters g.1).map (mkSpecies fmtMonth g.1 g.2))).map
      (fun s => s.cluster_id) =
    (gs.filter (fun g => (clusterFind clusters g.1).isSome)).map Prod.fst := by
  induction gs with
  | nil => rfl
  | cons g gs ih =>
    rw [List.filterMap_cons, List.filter_cons]
    rcases hf : clusterFind clusters g.1 with _ | c
    · simp [ih]
    · simp [ih]
      rfl

/-- Items spanning two cluster ids while only cluster 0 has a record
(fixture for the skip behavior). -/
def itemsTwoClusters : List SpItem := [⟨"a", 0, 10⟩, ⟨"b", 1, 20⟩]

/-- The cluster list holding only id 0 (fixture). -/
def clustersJustZero : List Cluster := [⟨0, "L", (0, 0), 1⟩]

/-- C10: `generate_species` silently skips cluster ids that appear on
items but have no record in the clusters list: a species with a given
cluster id exists iff the id occurs on a non-noise item and in the
clusters list.  In particular, for two items in clusters 0 and 1 with only
cluster 0 recorded, a single species is produced. -/
theorem species_only_for_known_clusters (fmtMonth : ℤ → String)
    (items : List SpItem) (clusters : List Cluster) (cid : ℤ) :
    ((∃ s ∈ generateSpecies fmtMonth items clusters, s.cluster_id = cid) ↔
      ((∃ it ∈ items, it.cluster = cid ∧ 0 ≤ cid) ∧ ∃ c ∈ clusters, c.id = cid)) ∧
    (generateSpecies (fun _ => "") itemsTwoClusters clustersJustZero).length = 1 ∧
    itemsTwoClusters.map (fun it => it.cluster) = [0, 1] ∧
    clustersJustZero.map (fun c => c.id) = [0] := by
  obtain ⟨hnd, hent, hcov⟩ := groupByCluster_rep items
  refine ⟨⟨?_, ?_⟩, by decide, by decide, by decide⟩
  · rintro ⟨s, hs, rfl⟩
    obtain ⟨g, hg, c, hfind, rfl⟩ := mem_generateSpecies.1 hs
    obtain ⟨h0, hfil, hne⟩ := hent g hg
    obtain ⟨y, hy⟩ := List.exists_mem_of_ne_nil _ hne
    rw [hfil] at hy
    obtain ⟨hyi, hyc⟩ := List.mem_filter.1 hy
    have hyc2 : y.cluster = g.1 := by simpa using hyc
    obtain ⟨hcmem, hcid⟩ := clusterFind_id hfind
    exact ⟨⟨y, hyi, hyc2, h0⟩, c, hcmem, hcid⟩
  · rintro ⟨⟨it, hit, hitc, h0⟩, c0, hc0, hc0id⟩
    have hkey : cid ∈ (groupByCluster items).map Prod.fst := by
      have h2 := hcov it hit (by rw [hitc]; exact h0)
      rwa [hitc] at h2
    obtain ⟨g, hg, hgfst⟩ := List.mem_map.1 hkey
    have hsome : (clusterFind clusters g.1).isSome = true := by
      rw [hgfst]
      exact clusterFind_isSome_iff.2 ⟨c0, hc0, hc0id⟩
    obtain ⟨c, hc⟩ := Option.isSome_iff_exists.1 hsome
    exact ⟨mkSpecies fmtMonth g.1 g.2 c,
      mem_generateSpecies.2 ⟨g, hg, c, hc, rfl⟩, hgfst⟩

/-- C5: every species record of `generate_species` has the shape the spec
describes — id `species_<cluster_id>`, name and centroid copied from the
looked-up cluster, member ids and count from the grouped items, min/max
timestamps over the members, and the month-granularity date range — there
is exactly one species per non-noise cluster id present among items (under
the pipeline invariant that every such id has a cluster record), and the
list is sorted non-decreasing by minimum timestamp. -/
theorem generate_species_records (fmtMonth : ℤ → String) (items : List SpItem)
    (clusters : List Cluster)
    (hknown : ∀ it ∈ items, 0 ≤ it.cluster → ∃ c ∈ clusters, c.id = it.cluster) :
    (∀ cid : ℤ, (∃ it ∈ items, it.cluster = cid ∧ 0 ≤ cid) →
      (generateSpecies fmtMonth items clusters).countP
        (fun s => s.cluster_id == cid) = 1) ∧
    (∀ s ∈ generateSpecies fmtMonth items clusters,
      (∃ it ∈ items, it.cluster = s.cluster_id ∧ 0 ≤ s.cluster_id) ∧
      s.id = "species_" ++ toString s.cluster_id ∧
      (∃ c, clusterFind clusters s.cluster_id = some c ∧ s.name = c.label ∧
        s.centroid = c.centroid) ∧
      s.item_ids =
        (items.filter (fun it => it.cluster == s.cluster_id)).map (fun it => it.id) ∧
      s.count = s.item_ids.length ∧
      s.min_timestamp ∈
        (items.filter (fun it => it.cluster == s.cluster_id)).map
          (fun it => it.timestamp) ∧
      (∀ it ∈ items.filter (fun it => it.cluster == s.cluster_id),
        s.min_timestamp ≤ it.timestamp) ∧
      s.max_timestamp ∈
        (items.filter (fun it => it.cluster == s.cluster_id)).map
          (fun it => it.timestamp) ∧
      (∀ it ∈ items.filter (fun it => it.cluster == s.cluster_id),
        it.timestamp ≤ s.max_timestamp) ∧
      (fmtMonth s.min_timestamp = fmtMonth s.max_timestamp →
        s.date_range = fmtMonth s.min_timestamp) ∧
      (fmtMonth s.min_timestamp ≠ fmtMonth s.max_timestamp →
        s.date_range = fmtMonth s.min_timestamp ++ " → " ++ fmtMonth s.max_timestamp)) ∧
    List.Sorted (fun a b => a.min_timestamp ≤ b.min_timestamp)
      (generateSpecies fmtMonth items clusters) := by
  obtain ⟨hnd, hent, hcov⟩ := groupByCluster_rep items
  refine ⟨?_, ?_, List.sorted_insertionSort _ _⟩
  · rintro cid ⟨it, hit, hitc, h0⟩
    have hperm : (generateSpecies fmtMonth items clusters).Perm
        ((groupByCluster items).filterMap
          (fun g => (clusterFind clusters g.1).map (mkSpecies fmtMonth g.1 g.2))) :=
      List.perm_insertionSort _ _
    rw [hperm.countP_eq]
    set raw := (groupByCluster items).filterMap
      (fun g => (clusterFind clusters g.1).map (mkSpecies fmtMonth g.1 g.2)) with hraw
    have hidnd : (raw.map (fun s => s.cluster_id)).Nodup := by
      rw [hraw, filterMap_clusterIds]
      exact ((List.filter_sublist _).map Prod.fst).nodup hnd
    have hcnt : (raw.map (fun s => s.cluster_id)).count cid =
        raw.countP (fun s => s.cluster_id == cid) := by
      show (raw.map (fun s => s.cluster_id)).countP (fun a => a == cid) = _
      rw [List.countP_map]
      rfl
    rw [← hcnt]
    apply List.count_eq_one_of_mem hidnd
    have hkey : cid ∈ (groupByCluster items).map Prod.fst := by
      have h2 := hcov it hit (by rw [hitc]; exact h0)
      rwa [hitc] at h2
    obtain ⟨g, hg, hgfst⟩ := List.mem_map.1 hkey
    have hsome : (clusterFind clusters g.1).isSome = true := by
      rw [hgfst]
      refine clusterFind_isSome_iff.2 ?_
      obtain ⟨c0, hc0, hc0id⟩ := hknown it hit (by rw [hitc]; exact h0)
      exact ⟨c0, hc0, by rw [hc0id, hitc]⟩
    obtain ⟨c, hc⟩ := Option.isSome_iff_exists.1 hsome
    have hmemraw : mkSpecies fmtMonth g.1 g.2 c ∈ raw := by
      rw [hraw]
      exact List.mem_filterMap.2 ⟨g, hg, by rw [hc]; rfl⟩
    rw [← hgfst]
    exact List.mem_map.2 ⟨_, hmemraw, rfl⟩
  · intro s hs
    obtain ⟨g, hg, c, hfind, rfl⟩ := mem_generateSpecies.1 hs
    obtain ⟨h0, hfil, hne⟩ := hent g hg
    rw [show (mkSpecies fmtMonth g.1 g.2 c).cluster_id = g.1 from rfl,
      show (mkSpecies fmtMonth g.1 g.2 c).min_timestamp = minTimestampOf g.2 from rfl,
      show (mkSpecies fmtMonth g.1 g.2 c).max_timestamp = maxTimestampOf g.2 from rfl]
    obtain ⟨y, hy⟩ := List.exists_mem_of_ne_nil _ hne
    have hy2 := hy
    rw [hfil] at hy2
    obtain ⟨hyi, hyc⟩ := List.mem_filter.1 hy2
    have hyc2 : y.cluster = g.1 := by simpa using hyc
    obtain ⟨hminmem, hminle⟩ := minTimestampOf_spec hne
    obtain ⟨hmaxmem, hmaxle⟩ := maxTimestampOf_spec hne
    refine ⟨⟨y, hyi, hyc2, h0⟩, rfl, ⟨c, hfind, rfl, rfl⟩, ?_, ?_, ?_, ?_, ?_, ?_, ?_, ?_⟩
    · show g.2.map (fun it => it.id) = _
      rw [← hfil]
    · show g.2.length = (g.2.map (fun it => it.id)).length
      rw [List.length_map]
    · rw [← hfil]
      exact hminmem
    · intro it hit
      rw [← hfil] at hit
      exact hminle it hit
    · rw [← hfil]
      exact hmaxmem
    · intro it hit
      rw [← hfil] at hit
      exact hmaxle it hit
    · intro h
      show (if fmtMonth (minTimestampOf g.2) = fmtMonth (maxTimestampOf g.2) then
          fmtMonth (minTimestampOf g.2)
        else fmtMonth (minTimestampOf g.2) ++ " → " ++ fmtMonth (maxTimestampOf g.2)) = _
      rw [if_pos h]
    · intro h
      show (if fmtMonth (minTimestampOf g.2) = fmtMonth (maxTimestampOf g.2) then
          fmtMonth (minTimestampOf g.2)
        else fmtMonth (minTimestampOf g.2) ++ " → " ++ fmtMonth (maxTimestampOf g.2)) = _
      rw [if_neg h]

/-- Two items of one cluster, 30 seconds apart (witness fixture). -/
def itemsOneCluster : List SpItem := [⟨"a", 0, 10⟩, ⟨"b", 0, 40⟩]

/-- A single cluster record with id 0 (witness fixture). -/
def clustersLone : List Cluster := [⟨0, "Label", (1, 2), 2⟩]

/-- Constant month formatter (witness fixture). -/
def fmtConst : ℤ → String := fun _ => "2024-01"

/-- Witness for C5 at a concrete two-item, one-cluster input. -/
theorem generate_species_records_witness :
    (∀ cid : ℤ, (∃ it ∈ itemsOneCluster, it.cluster = cid ∧ 0 ≤ cid) →
      (generateSpecies fmtConst itemsOneCluster clustersLone).countP
        (fun s => s.cluster_id == cid) = 1) ∧
    (∀ s ∈ generateSpecies fmtConst itemsOneCluster clustersLone,
      (∃ it ∈ itemsOneCluster, it.cluster = s.cluster_id ∧ 0 ≤ s.cluster_id) ∧
      s.id = "species_" ++ toString s.cluster_id ∧
      (∃ c, clusterFind clustersLone s.cluster_id = some c ∧ s.name = c.label ∧
        s.centroid = c.centroid) ∧
      s.item_ids =
        (itemsOneCluster.filter (fun it => it.cluster == s.cluster_id)).map
          (fun it => it.id) ∧
      s.count = s.item_ids.length ∧
      s.min_timestamp ∈
        (itemsOneCluster.filter (fun it => it.cluster == s.cluster_id)).map
          (fun it => it.timestamp) ∧
      (∀ it ∈ itemsOneCluster.filter (fun it => it.cluster == s.cluster_id),
        s.min_timestamp ≤ it.timestamp) ∧
      s.max_timestamp ∈
        (itemsOneCluster.filter (fun it => it.cluster == s.cluster_id)).map
          (fun it => it.timestamp) ∧
      (∀ it ∈ itemsOneCluster.filter (fun it => it.cluster == s.cluster_id),
        it.timestamp ≤ s.max_timestamp) ∧
      (fmtConst s.min_timestamp = fmtConst s.max_timestamp →
        s.date_range = fmtConst s.min_timestamp) ∧
      (fmtConst s.min_timestamp ≠ fmtConst s.max_timestamp →
        s.date_range = fmtConst s.min_timestamp ++ " → " ++ fmtConst s.max_timestamp)) ∧
    List.Sorted (fun a b => a.min_timestamp ≤ b.min_timestamp)
      (generateSpecies fmtConst itemsOneCluster clustersLone) :=
  generate_species_records fmtConst itemsOneCluster clustersLone (by decide)

/-! ## cluster.py — label heuristics

`get_text_cluster_label` and `get_image_semantic_label` with
`_fallback_image_label`.  String functions are embedded over `List Char`
(`String.data`) so they compute by structural recursion; the filesystem
(PIL image opening, text-file reading), the `torch` import and the CLIP
model are explicit parameters. -/

/-- The stopword set of `get_text_cluster_label`. -/
def STOPWORDS : List String := [
  "the", "a", "an", "and", "or", "but", "in", "on", "at", "to", "for",
  "of", "with", "by", "from", "is", "are", "was", "were", "be", "been",
  "being", "have", "has", "had", "do", "does", "did", "will", "would",
  "could", "should", "may", "might", "must", "shall", "can", "this",
  "that", "these", "those", "i", "you", "he", "she", "it", "we", "they",
  "what", "which", "who", "when", "where", "why", "how", "all", "each",
  "every", "both", "few", "more", "most", "other", "some", "such", "no",
  "not", "only", "same", "so", "than", "too", "very", "just", "also",
  "now", "here", "there", "then", "if", "as", "because", "until", "while",
  "about", "into", "through", "during", "before", "after", "above", "below"]

/-- The punctuation set of `w.strip('.,!?()[]\x7b\x7d":;-_#*')`. -/
def STRIP_CHARS : List Char :=
  ['.', ',', '!', '?', '(', ')', '[', ']', '\x7b', '\x7d', '"', ':', ';', '-', '_', '#', '*']

/-- Python `str.lower()` (ASCII case mapping). -/
def pyLower (t : String) : String := String.mk (t.data.map Char.toLower)

/-- Whitespace splitter of Python `str.split()` (no separator argument):
runs of whitespace separate words, no empty words. -/
def splitWhitespaceAux : List Char → List Char → List String
  | [], cur => if cur = [] then [] else [String.mk cur.reverse]
  | c :: cs, cur =>
    if c.isWhitespace then
      if cur = [] then splitWhitespaceAux cs []
      else String.mk cur.reverse :: splitWhitespaceAux cs []
    else splitWhitespaceAux cs (c :: cur)

/-- Python `str.split()`. -/
def pySplit (t : String) : List String := splitWhitespaceAux t.data []

/-- Python `w.strip(chars)`: drop the given characters from both ends. -/
def stripPunct (w : String) : String :=
  String.mk
    (((w.data.dropWhile (fun c => c ∈ STRIP_CHARS)).reverse.dropWhile
      (fun c => c ∈ STRIP_CHARS)).reverse)

/-- Python `w.isalpha()` (ASCII range, as all inputs here are ASCII). -/
def pyIsAlpha (w : String) : Bool :=
  !w.data.isEmpty && w.data.all (fun c => c.isAlpha)

/-- Python `str.title()`: uppercase a letter starting a letter run,
lowercase the other letters, keep everything else. -/
def pyTitle (s : String) : String :=
  String.mk
    (s.data.foldl
      (fun (acc : List Char × Bool) c =>
        if c.isAlpha then
          (acc.1 ++ [if acc.2 then c.toLower else c.toUpper], true)
        else (acc.1 ++ [c], false))
      ([], false)).1

/-- The per-text word extraction of `get_text_cluster_label`:
`text.lower().split()`, strip punctuation, keep words of length > 3 that
are not stopwords and are alphabetic. -/
def survivingWords (t : String) : List String :=
  ((pySplit (pyLower t)).map stripPunct).filter
    (fun w => decide (3 < w.length) && !(STOPWORDS.contains w) && pyIsAlpha w)

/-- Counter insertion order: distinct values in first-appearance order. -/
def firstOccurrences (ws : List String) : List String :=
  ws.foldl (fun acc w => if w ∈ acc then acc else acc ++ [w]) []

/-- `Counter(ws).most_common(...)[0][0]`: the first-inserted value among
those of maximal count (Python's stable descending sort by count). -/
def mostCommonWord (ws : List String) : Option String :=
  (firstOccurrences ws).foldl
    (fun best w =>
      match best with
      | none => some w
      | some b => if ws.count b < ws.count w then some w else best) none

/-- The sampled word stream of `get_text_cluster_label`: for each of the
first 10 items, `none` stands for an item with no cached preview whose
content file cannot be read (the `except: continue`), `some t` for the
preview or the first 500 characters read from the file. -/
def clusterWords (texts : List (Option String)) : List String :=
  (texts.take 10).foldl
    (fun acc t? =>
      match t? with
      | none => acc
      | some t => acc ++ survivingWords t) []

/-- `get_text_cluster_label`: most common surviving word, title-cased, or
the `"misc"` placeholder. -/
def getTextClusterLabel (texts : List (Option String)) : String :=
  match mostCommonWord (clusterWords texts) with
  | some w => pyTitle w
  | none => "misc"

lemma mem_firstOccurrences {ws : List String} {w : String} :
    w ∈ firstOccurrences ws ↔ w ∈ ws := by
  unfold firstOccurrences
  have main : ∀ (l : List String) (acc : List String),
      (w ∈ l.foldl (fun acc w => if w ∈ acc then acc else acc ++ [w]) acc ↔
        w ∈ acc ∨ w ∈ l) := by
    intro l
    induction l with
    | nil => intro acc; simp
    | cons x xs ih =>
      intro acc
      rw [List.foldl_cons]
      by_cases hx : x ∈ acc
      · rw [if_pos hx, ih]
        constructor
        · rintro (h | h)
          · exact Or.inl h
          · exact Or.inr (List.mem_cons_of_mem _ h)
        · rintro (h | h)
          · exact Or.inl h
          · rcases List.mem_cons.1 h with rfl | h
            · exact Or.inl hx
            · exact Or.inr h
      · rw [if_neg hx, ih]
        constructor
        · rintro (h | h)
          · rcases List.mem_append.1 h with h | h
            · exact Or.inl h
            · exact Or.inr (by rw [List.mem_singleton.1 h]; exact List.mem_cons_self _ _)
          · exact Or.inr (List.mem_cons_of_mem _ h)
        · rintro (h | h)
          · exact Or.inl (List.mem_append_left _ h)
          · rcases List.mem_cons.1 h with rfl | h
            · exact Or.inl (List.mem_append_right _ (List.mem_singleton_self _))
            · exact Or.inr h
  rw [main ws []]
  simp

lemma mostCommonBest_spec (cnt : String → ℕ) :
    ∀ (l : List String) (b : Option String),
      (l.foldl (fun best w =>
        match best with
        | none => some w
        | some x => if cnt x < cnt w then some w else best) b = none →
          l = [] ∧ b = none) ∧
      (∀ w, l.foldl (fun best w =>
        match best with
        | none => some w
        | some x => if cnt x < cnt w then some w else best) b = some w →
        (w ∈ l ∨ b = some w) ∧ (∀ v ∈ l, cnt v ≤ cnt w) ∧
          (∀ x, b = some x → cnt x ≤ cnt w)) := by
  intro l
  induction l with
  | nil =>
    intro b
    refine ⟨fun h => ⟨rfl, h⟩, fun w h => ⟨Or.inr h, ?_, ?_⟩⟩
    · intro v hv; exact absurd hv (List.not_mem_nil _)
    · intro x hx
      have hb : b = some w := h
      rw [hb] at hx
      rw [Option.some_injective _ hx]
  | cons y ys ih =>
    intro b
    rw [List.foldl_cons]
    constructor
    · intro h
      rcases b with _ | x
      · rcases ((ih (some y)).1 h).2 with h2
        exact absurd h2 (by simp)
      · rcases hcmp : (if cnt x < cnt y then some y else some x) with _ | z
        · split at hcmp
          · exact absurd hcmp (by simp)
          · exact absurd hcmp (by simp)
        · rw [show ((match some x with
              | none => some y
              | some x => if cnt x < cnt y then some y else some x) : Option String) =
              if cnt x < cnt y then some y else some x from rfl, hcmp] at h
          rcases ((ih (some z)).1 h).2 with h2
          exact absurd h2 (by simp)
    · intro w h
      rcases b with _ | x
      · obtain ⟨hmem, hall, hb⟩ := (ih (some y)).2 w h
        refine ⟨?_, ?_, ?_⟩
        · rcases hmem with h2 | h2
          · exact Or.inl (List.mem_cons_of_mem _ h2)
          · exact Or.inl (by rw [Option.some_injective _ h2]; exact List.mem_cons_self _ _)
        · intro v hv
          rcases List.mem_cons.1 hv with rfl | hv
          · exact hb v rfl
          · exact hall v hv
        · intro x hx
          exact absurd hx (by simp)
      · have hstep : (match some x with
            | none => some y
            | some x => if cnt x < cnt y then some y else some x) =
            if cnt x < cnt y then some y else some x := rfl
        rw [hstep] at h
        by_cases hcmp : cnt x < cnt y
        · rw [if_pos hcmp] at h
          obtain ⟨hmem, hall, hb⟩ := (ih (some y)).2 w h
          refine ⟨?_, ?_, ?_⟩
          · rcases hmem with h2 | h2
            · exact Or.inl (List.mem_cons_of_mem _ h2)
            · exact Or.inl (by rw [Option.some_injective _ h2]; exact List.mem_cons_self _ _)
          · intro v hv
            rcases List.mem_cons.1 hv with rfl | hv
            · exact hb v rfl
            · exact hall v hv
          · intro z hz
            have hxz : z = x := Option.some_injective _ hz.symm
            exact hxz ▸ le_trans (le_of_lt hcmp) (hb y rfl)
        · rw [if_neg hcmp] at h
          obtain ⟨hmem, hall, hb⟩ := (ih (some x)).2 w h
          refine ⟨?_, ?_, ?_⟩
          · rcases hmem with h2 | h2
            · exact Or.inl (List.mem_cons_of_mem _ h2)
            · exact Or.inr h2
          · intro v hv
            rcases List.mem_cons.1 hv with rfl | hv
            · exact le_trans (not_lt.1 hcmp) (hb x rfl)
            · exact hall v hv
          · intro z hz
            exact hb z hz

lemma mostCommonWord_eq_none {ws : List String} (h : mostCommonWord ws = none) :
    ws = [] := by
  unfold mostCommonWord at h
  have h1 := ((mostCommonBest_spec ws.count (firstOccurrences ws) none).1 h).1
  by_contra hne
  obtain ⟨x, hx⟩ := List.exists_mem_of_ne_nil ws hne
  have hxf : x ∈ firstOccurrences ws := mem_firstOccurrences.2 hx
  rw [h1] at hxf
  exact List.not_mem_nil x hxf

lemma mostCommonWord_eq_some {ws : List String} {w : String}
    (h : mostCommonWord ws = some w) :
    w ∈ ws ∧ ∀ v ∈ ws, ws.count v ≤ ws.count w := by
  unfold mostCommonWord at h
  obtain ⟨hmem, hall, -⟩ := (mostCommonBest_spec ws.count (firstOccurrences ws) none).2 w h
  constructor
  · rcases hmem with h2 | h2
    · exact mem_firstOccurrences.1 h2
    · exact absurd h2 (by simp)
  · intro v hv
    exact hall v (mem_firstOccurrences.2 hv)

lemma mem_survivingWords {t w : String} (h : w ∈ survivingWords t) :
    3 < w.length ∧ w ∉ STOPWORDS ∧ pyIsAlpha w = true := by
  obtain ⟨-, hp⟩ := List.mem_filter.1 h
  rw [Bool.and_eq_true] at hp
  obtain ⟨hp1, hp3⟩ := hp
  rw [Bool.and_eq_true] at hp1
  obtain ⟨hlen, hstop⟩ := hp1
  refine ⟨by simpa using hlen, ?_, hp3⟩
  intro hmem
  have hcontains : (STOPWORDS.contains w) = true := List.elem_iff.2 hmem
  rw [hcontains] at hstop
  simp at hstop

lemma mem_clusterWords {texts : List (Option String)} {w : String}
    (h : w ∈ clusterWords texts) :
    3 < w.length ∧ w ∉ STOPWORDS ∧ pyIsAlpha w = true := by
  unfold clusterWords at h
  have main : ∀ (l : List (Option String)) (acc : List String),
      w ∈ l.foldl (fun acc t? => match t? with
        | none => acc
        | some t => acc ++ survivingWords t) acc →
      w ∈ acc ∨ ∃ t, w ∈ survivingWords t := by
    intro l
    induction l with
    | nil => exact fun acc h => Or.inl h
    | cons t? l ih =>
      intro acc h
      rw [List.foldl_cons] at h
      rcases t? with _ | t
      · exact ih acc h
      · rcases ih _ h with h2 | h2
        · rcases List.mem_append.1 h2 with h3 | h3
          · exact Or.inl h3
          · exact Or.inr ⟨t, h3⟩
        · exact Or.inr h2
  rcases main _ _ h with h2 | ⟨t, h2⟩
  · exact absurd h2 (List.not_mem_nil _)
  · exact mem_survivingWords h2

set_option maxRecDepth 10000

/-- The scenario preview repeated over the whole sample (fixture). -/
def foxTexts : List (Option String) :=
  List.replicate 10 (some "the quick brown fox jumps over the lazy dog")

/-- C6: `get_text_cluster_label` returns the placeholder when no word
survives the filters, and otherwise the title-cased most frequent
surviving word — a word longer than 3 characters, not a stopword, purely
alphabetic.  On the repeated preview "the quick brown fox jumps over the
lazy dog" the label is "Quick". -/
theorem text_label_most_common_keyword (texts : List (Option String)) :
    (clusterWords texts = [] → getTextClusterLabel texts = "misc") ∧
    (clusterWords texts ≠ [] → ∃ w ∈ clusterWords texts,
      getTextClusterLabel texts = pyTitle w ∧
      3 < w.length ∧ w ∉ STOPWORDS ∧ pyIsAlpha w = true ∧
      ∀ v ∈ clusterWords texts,
        (clusterWords texts).count v ≤ (clusterWords texts).count w) ∧
    getTextClusterLabel foxTexts = "Quick" ∧
    "quick" ∉ STOPWORDS ∧ (3 < "quick".length) ∧ pyTitle "quick" = "Quick" := by
  refine ⟨?_, ?_, by decide, by decide, by decide, by decide⟩
  · intro h
    unfold getTextClusterLabel
    rcases hm : mostCommonWord (clusterWords texts) with _ | w
    · rfl
    · have hmem := (mostCommonWord_eq_some hm).1
      rw [h] at hmem
      exact absurd hmem (List.not_mem_nil _)
  · intro h
    rcases hm : mostCommonWord (clusterWords texts) with _ | w
    · exact absurd (mostCommonWord_eq_none hm) h
    · obtain ⟨hmem, hall⟩ := mostCommonWord_eq_some hm
      obtain ⟨hlen, hstop, halpha⟩ := mem_clusterWords hmem
      refine ⟨w, hmem, ?_, hlen, hstop, halpha, hall⟩
      unfold getTextClusterLabel
      rw [hm]

/-- Witness for C6 at the concrete repeated-preview sample. -/
theorem text_label_most_common_keyword_witness :
    (clusterWords foxTexts = [] → getTextClusterLabel foxTexts = "misc") ∧
    (clusterWords foxTexts ≠ [] → ∃ w ∈ clusterWords foxTexts,
      getTextClusterLabel foxTexts = pyTitle w ∧
      3 < w.length ∧ w ∉ STOPWORDS ∧ pyIsAlpha w = true ∧
      ∀ v ∈ clusterWords foxTexts,
        (clusterWords foxTexts).count v ≤ (clusterWords foxTexts).count w) ∧
    getTextClusterLabel foxTexts = "Quick" ∧
    "quick" ∉ STOPWORDS ∧ (3 < "quick".length) ∧ pyTitle "quick" = "Quick" :=
  text_label_most_common_keyword foxTexts

/-- The candidate vocabulary `IMAGE_LABELS` for zero-shot classification. -/
def IMAGE_LABELS : List String := [
  "landscape painting", "portrait", "architecture", "vehicle", "car",
  "military", "nature photography", "abstract art", "digital art",
  "vintage photograph", "movie still", "product photo", "fashion",
  "interior design", "furniture", "technology", "diagram", "map",
  "meme", "screenshot", "UI design", "illustration", "sculpture",
  "historical photo", "aerial view", "food", "animal", "person",
  "building", "artwork", "document", "book cover", "poster",
  "romantic painting", "impressionist art", "classical art"]

/-- The stopword set of `_fallback_image_label`. -/
def FALLBACK_STOPWORDS : List String := [
  "image", "images", "img", "jpeg", "jpg", "png", "webp", "gif",
  "final", "copy", "screen", "screenshot", "photo", "pics", "picture",
  "download", "downloads", "edited", "edit", "export", "output"]

/-- Collect maximal runs of characters in `a`..`z` (the tokenizer loop of
`_fallback_image_label`); `cur` is the current run, reversed. -/
def alphaRunsAux : List Char → List Char → List String
  | [], cur => if cur = [] then [] else [String.mk cur.reverse]
  | c :: cs, cur =>
    if 'a' ≤ c ∧ c ≤ 'z' then alphaRunsAux cs (c :: cur)
    else if cur = [] then alphaRunsAux cs []
    else String.mk cur.reverse :: alphaRunsAux cs []

/-- Tokenize `str(p).lower()` into lowercase alphabetic runs. -/
def alphaRuns (p : String) : List String :=
  alphaRunsAux (p.data.map Char.toLower) []

/-- The token stream of `_fallback_image_label` over the first 40 paths:
tokens of length ≥ 4 that are not filename jargon. -/
def fallbackTokens (paths : List String) : List String :=
  (paths.take 40).foldl
    (fun acc p =>
      acc ++ ((alphaRuns p).filter
        (fun tk => decide (4 ≤ tk.length) && !(FALLBACK_STOPWORDS.contains tk)))) []

/-- `_fallback_image_label`: most common surviving path token,
title-cased, or the `"Images"` placeholder. -/
def fallbackImageLabel (paths : List String) : String :=
  match mostCommonWord (fallbackTokens paths) with
  | some tk => pyTitle tk
  | none => "Images"

/-- `label_scores.topk(1)`: first index of the maximal averaged score. -/
def argmaxScore (score : ℕ → ℚ) (n : ℕ) : ℕ :=
  (List.range n).foldl (fun best i => if score best < score i then i else best) 0

/-- `get_image_semantic_label`.  `canOpen` abstracts PIL opening of the
sampled paths (`images` is the successfully opened sample),
`torchAvailable` the lazy `import torch`, `modelAvailable` whether
`model`/`processor` are not `None`, and `scoreAvg` the averaged CLIP
similarity per candidate label.  When the model and processor are `None`
but an image opened and torch imports, the source calls
`processor(text=...)` on `None`, raising an uncaught `TypeError` —
embedded as `Except.error ()`. -/
def getImageSemanticLabel (modelAvailable torchAvailable : Bool)
    (canOpen : String → Bool) (scoreAvg : ℕ → ℚ) (paths : List String) :
    Except Unit String :=
  if (paths.take 5).filter canOpen = [] then Except.ok (fallbackImageLabel paths)
  else if !torchAvailable then Except.ok (fallbackImageLabel paths)
  else if !modelAvailable then Except.error ()
  else Except.ok (pyTitle (IMAGE_LABELS.getD (argmaxScore scoreAvg IMAGE_LABELS.length) ""))

lemma toUpper_ne_slash (c : Char) (h : c ≠ '/') : c.toUpper ≠ '/' := by
  show (if c.toNat ≥ 97 ∧ c.toNat ≤ 122 then Char.ofNat (c.toNat - 32) else c) ≠ '/'
  split
  case isTrue hc =>
    intro heq
    have h1 : (Char.ofNat (Char.toNat c - 32)).toNat = Char.toNat c - 32 := by
      unfold Char.ofNat
      split
      · rfl
      · exact absurd (Or.inl (by omega)) (by assumption)
    rw [heq] at h1
    have h47 : ('/' : Char).toNat = 47 := rfl
    omega
  case isFalse => exact h

lemma toLower_ne_slash (c : Char) (h : c ≠ '/') : c.toLower ≠ '/' := by
  show (if c.toNat ≥ 65 ∧ c.toNat ≤ 90 then Char.ofNat (c.toNat + 32) else c) ≠ '/'
  split
  case isTrue hc =>
    intro heq
    have h1 : (Char.ofNat (Char.toNat c + 32)).toNat = Char.toNat c + 32 := by
      unfold Char.ofNat
      split
      · rfl
      · exact absurd (Or.inl (by omega)) (by assumption)
    rw [heq] at h1
    have h47 : ('/' : Char).toNat = 47 := rfl
    omega
  case isFalse => exact h

lemma pyTitle_no_slash {s : String} (h : ∀ c ∈ s.data, c ≠ '/') :
    ∀ c ∈ (pyTitle s).data, c ≠ '/' := by
  unfold pyTitle
  have main : ∀ (l : List Char) (acc : List Char × Bool),
      (∀ c ∈ acc.1, c ≠ '/') → (∀ c ∈ l, c ≠ '/') →
      ∀ c ∈ (l.foldl
        (fun (acc : List Char × Bool) c =>
          if c.isAlpha then
            (acc.1 ++ [if acc.2 then c.toLower else c.toUpper], true)
          else (acc.1 ++ [c], false)) acc).1, c ≠ '/' := by
    intro l
    induction l with
    | nil => exact fun acc hacc _ => hacc
    | cons x xs ih =>
      intro acc hacc hl
      rw [List.foldl_cons]
      have hx : x ≠ '/' := hl x (List.mem_cons_self _ _)
      have hxs : ∀ c ∈ xs, c ≠ '/' := fun c hc => hl c (List.mem_cons_of_mem _ hc)
      by_cases ha : x.isAlpha = true
      · rw [if_pos ha]
        refine ih _ ?_ hxs
        intro c hc
        rcases List.mem_append.1 hc with hc | hc
        · exact hacc c hc
        · rw [List.mem_singleton.1 hc]
          by_cases hb : acc.2 = true
          · rw [if_pos hb]
            exact toLower_ne_slash x hx
          · rw [if_neg hb]
            exact toUpper_ne_slash x hx
      · rw [if_neg ha]
        refine ih _ ?_ hxs
        intro c hc
        rcases List.mem_append.1 hc with hc | hc
        · exact hacc c hc
        · rw [List.mem_singleton.1 hc]
          exact hx
  exact main s.data ([], false) (fun c hc => absurd hc (List.not_mem_nil _)) h

lemma getTextClusterLabel_no_slash (texts : List (Option String)) :
    ('/' : Char) ∉ (getTextClusterLabel texts).data := by
  unfold getTextClusterLabel
  rcases hm : mostCommonWord (clusterWords texts) with _ | w
  · decide
  · obtain ⟨hmem, -⟩ := mostCommonWord_eq_some hm
    obtain ⟨-, -, halpha⟩ := mem_clusterWords hmem
    intro hc
    refine pyTitle_no_slash ?_ _ hc rfl
    intro c hcmem
    intro hceq
    unfold pyIsAlpha at halpha
    rw [Bool.and_eq_true] at halpha
    have hall := halpha.2
    rw [List.all_eq_true] at hall
    have hcalpha := hall c hcmem
    rw [hceq] at hcalpha
    simp [Char.isAlpha, Char.isUpper, Char.isLower] at hcalpha

lemma alphaRunsAux_chars : ∀ (cs cur : List Char),
    (∀ c ∈ cur, 'a' ≤ c ∧ c ≤ 'z') →
    ∀ tk ∈ alphaRunsAux cs cur, ∀ c ∈ tk.data, 'a' ≤ c ∧ c ≤ 'z' := by
  intro cs
  induction cs with
  | nil =>
    intro cur hcur tk htk
    unfold alphaRunsAux at htk
    split at htk
    · exact absurd htk (List.not_mem_nil _)
    · rw [List.mem_singleton.1 htk]
      intro c hc
      exact hcur c (List.mem_reverse.1 hc)
  | cons x xs ih =>
    intro cur hcur tk htk
    unfold alphaRunsAux at htk
    split at htk
    case isTrue hx =>
      refine ih _ ?_ tk htk
      intro c hc
      rcases List.mem_cons.1 hc with rfl | hc
      · exact hx
      · exact hcur c hc
    case isFalse hx =>
      split at htk
      · exact ih _ (fun c hc => absurd hc (List.not_mem_nil _)) tk htk
      · rcases List.mem_cons.1 htk with rfl | htk
        · intro c hc
          exact hcur c (List.mem_reverse.1 hc)
        · exact ih _ (fun c hc => absurd hc (List.not_mem_nil _)) tk htk

lemma mem_fallbackTokens_chars {paths : List String} {tk : String}
    (h : tk ∈ fallbackTokens paths) : ∀ c ∈ tk.data, 'a' ≤ c ∧ c ≤ 'z' := by
  unfold fallbackTokens at h
  have main : ∀ (l : List String) (acc : List String),
      tk ∈ l.foldl (fun acc p =>
        acc ++ ((alphaRuns p).filter
          (fun tk => decide (4 ≤ tk.length) && !(FALLBACK_STOPWORDS.contains tk)))) acc →
      tk ∈ acc ∨ ∃ p, tk ∈ alphaRuns p := by
    intro l
    induction l with
    | nil => exact fun acc h => Or.inl h
    | cons p l ih =>
      intro acc h
      rw [List.foldl_cons] at h
      rcases ih _ h with h2 | h2
      · rcases List.mem_append.1 h2 with h3 | h3
        · exact Or.inl h3
        · exact Or.inr ⟨p, (List.mem_filter.1 h3).1⟩
      · exact Or.inr h2
  rcases main _ _ h with h2 | ⟨p, h2⟩
  · exact absurd h2 (List.not_mem_nil _)
  · exact alphaRunsAux_chars _ _ (fun c hc => absurd hc (List.not_mem_nil _)) tk h2

lemma fallbackImageLabel_no_slash (paths : List String) :
    ('/' : Char) ∉ (fallbackImageLabel paths).data := by
  unfold fallbackImageLabel
  rcases hm : mostCommonWord (fallbackTokens paths) with _ | tk
  · decide
  · obtain ⟨hmem, -⟩ := mostCommonWord_eq_some hm
    intro hc
    refine pyTitle_no_slash ?_ _ hc rfl
    intro c hcmem hceq
    have := mem_fallbackTokens_chars hmem c hcmem
    rw [hceq] at this
    exact absurd this.1 (by decide)

lemma image_label_getD_no_slash (idx : ℕ) :
    ∀ c ∈ (IMAGE_LABELS.getD idx "").data, c ≠ '/' := by
  by_cases hidx : idx < IMAGE_LABELS.length
  · rw [List.getD_eq_getElem _ _ hidx]
    have hall : ∀ l ∈ IMAGE_LABELS, ∀ c ∈ l.data, c ≠ '/' := by decide
    exact hall _ (List.getElem_mem hidx)
  · rw [List.getD_eq_default _ _ (le_of_not_lt hidx)]
    intro c hc
    exact absurd hc (List.not_mem_nil _)

/-- C8: neither label strategy ever produces a label containing the
compound-label separator `/` — the text keyword label, the filename
fallback label, and any label the zero-shot classification path returns
are all slash-free single labels. -/
theorem cluster_labels_never_compound :
    (∀ texts : List (Option String),
      ('/' : Char) ∉ (getTextClusterLabel texts).data) ∧
    (∀ paths : List String, ('/' : Char) ∉ (fallbackImageLabel paths).data) ∧
    (∀ (m t : Bool) (canOpen : String → Bool) (scoreAvg : ℕ → ℚ)
      (paths : List String) (s : String),
      getImageSemanticLabel m t canOpen scoreAvg paths = Except.ok s →
      ('/' : Char) ∉ s.data) := by
  refine ⟨getTextClusterLabel_no_slash, fallbackImageLabel_no_slash, ?_⟩
  intro m t canOpen scoreAvg paths s h
  unfold getImageSemanticLabel at h
  split at h
  · rw [← Except.ok.inj h]
    exact fallbackImageLabel_no_slash paths
  · split at h
    · rw [← Except.ok.inj h]
      exact fallbackImageLabel_no_slash paths
    · split at h
      · exact absurd h (by simp)
      · rw [← Except.ok.inj h]
        intro hc
        exact pyTitle_no_slash (image_label_getD_no_slash _) _ hc rfl

/-- C4 evidence: `get_image_semantic_label` with `model`/`processor`
`None`, torch importable and an openable image raises (calls `None` as
`processor`), instead of returning the fallback label; the fallback is
returned only when no image opens or torch is unavailable. -/
theorem image_label_crash_without_model :
    getImageSemanticLabel false true (fun _ => true) (fun _ => 0) ["a.jpg"] =
      Except.error () ∧
    (∀ (m : Bool) (scoreAvg : ℕ → ℚ) (paths : List String),
      getImageSemanticLabel m true (fun _ => false) scoreAvg paths =
        Except.ok (fallbackImageLabel paths)) ∧
    (∀ (m : Bool) (canOpen : String → Bool) (scoreAvg : ℕ → ℚ) (paths : List String),
      getImageSemanticLabel m false canOpen scoreAvg paths =
        Except.ok (fallbackImageLabel paths)) := by
  refine ⟨rfl, ?_, ?_⟩
  · intro m scoreAvg paths
    unfold getImageSemanticLabel
    have hnil : (paths.take 5).filter (fun _ => false) = [] := by simp
    rw [hnil, if_pos rfl]
  · intro m canOpen scoreAvg paths
    unfold getImageSemanticLabel
    by_cases himg : (paths.take 5).filter canOpen = []
    · rw [if_pos himg]
    · rw [if_neg himg]
      rfl

/-! ## output file naming (cluster.py main and phylogeny.py main) -/

/-- `embeddings_clustered{suffix}.json` with
`suffix = "_text" if mode == "text" else ""` (cluster.py). -/
def clusteredOutputName (mode : String) : String :=
  "embeddings_clustered" ++ (if mode = "text" then "_text" else "") ++ ".json"

/-- `embeddings_{mode}.json` (phylogeny.py final output). -/
def phylogenyOutputName (mode : String) : String :=
  "embeddings_" ++ mode ++ ".json"

/-- C7 counterexample: the final phylogeny output in image mode is
`embeddings_image.json`, which carries an `_image` suffix rather than the
unsuffixed `embeddings.json` the naming-convention claim requires. -/
theorem phylogeny_image_output_not_unsuffixed :
    phylogenyOutputName "image" = "embeddings_image.json" ∧
    phylogenyOutputName "image" ≠ "embeddings.json" := by
  refine ⟨rfl, ?_⟩
  decide

/-- C7 amended: the clustered intermediate file follows the convention
(unsuffixed in image mode, `_text` in text mode); the final phylogeny
output is `embeddings_<mode>.json`, so it carries `_text` in text mode
but `_image` — not an unsuffixed name — in image mode. -/
theorem output_naming_convention :
    clusteredOutputName "image" = "embeddings_clustered.json" ∧
    clusteredOutputName "text" = "embeddings_clustered_text.json" ∧
    phylogenyOutputName "text" = "embeddings_text.json" ∧
    phylogenyOutputName "image" = "embeddings_image.json" := by
  refine ⟨?_, ?_, rfl, rfl⟩
  · decide
  · decide

/-- Witness for C8: the text label of the concrete repeated preview and a
concrete fallback-path image label are slash-free. -/
theorem cluster_labels_never_compound_witness :
    ('/' : Char) ∉ (getTextClusterLabel foxTexts).data ∧
    getImageSemanticLabel true false (fun _ => true) (fun _ => 0) ["a.jpg"] =
      Except.ok (fallbackImageLabel ["a.jpg"]) ∧
    ('/' : Char) ∉ (fallbackImageLabel ["a.jpg"]).data :=
  ⟨cluster_labels_never_compound.1 foxTexts, rfl,
    cluster_labels_never_compound.2.2 true false (fun _ => true) (fun _ => 0)
      ["a.jpg"] (fallbackImageLabel ["a.jpg"]) rfl⟩

lemma bfsStep_visited_le (mst : ℕ → ℕ → ℚ) (node : ℕ) (st : BfsState) (nb : ℕ) :
    st.visited.length ≤ (bfsStep mst node st nb).visited.length := by
  unfold bfsStep
  split
  · simp
  · exact le_refl _

lemma bfsStep_growth (mst : ℕ → ℕ → ℚ) (node : ℕ) (st : BfsState) (nb : ℕ) :
    (bfsStep mst node st nb).visited.length + st.queue.length =
      (bfsStep mst node st nb).queue.length + st.visited.length := by
  unfold bfsStep
  split
  · simp
    omega
  · omega

lemma bfsFold_visited_le (mst : ℕ → ℕ → ℚ) (node : ℕ) (l : List ℕ) :
    ∀ st : BfsState,
      st.visited.length ≤ ((l.foldl (bfsStep mst node) st)).visited.length := by
  induction l with
  | nil => exact fun st => le_refl _
  | cons nb l ih =>
    intro st
    rw [List.foldl_cons]
    exact le_trans (bfsStep_visited_le mst node st nb) (ih _)

lemma bfsFold_growth (mst : ℕ → ℕ → ℚ) (node : ℕ) (l : List ℕ) :
    ∀ st : BfsState,
      (l.foldl (bfsStep mst node) st).visited.length + st.queue.length =
        (l.foldl (bfsStep mst node) st).queue.length + st.visited.length := by
  induction l with
  | nil => exact fun st => Nat.add_comm _ _
  | cons nb l ih =>
    intro st
    rw [List.foldl_cons]
    have h1 := bfsStep_growth mst node st nb
    have h2 := ih (bfsStep mst node st nb)
    omega

lemma bfsInv_visited_le_n {n root : ℕ} {s : BfsState} (h : BfsInv n root s) :
    s.visited.length ≤ n := by
  have hsub : s.visited ⊆ List.range n := fun x hx => List.mem_range.2 (h.bounded x hx)
  have := (h.nodup.subperm hsub).length_le
  simpa using this

/-- Fuel adequacy of the `while queue:` loop: from any invariant state,
`(n - visited) + queue` units of fuel reach the empty-queue exit — every
loop iteration pops one element and enqueues one element per fresh
visit. -/
lemma bfsLoop_empties {mst : ℕ → ℕ → ℚ} {n root : ℕ} (fuel : ℕ) :
    ∀ s : BfsState, BfsInv n root s →
      (n - s.visited.length) + s.queue.length ≤ fuel →
      (bfsLoop mst n fuel s).queue = [] := by
  induction fuel with
  | zero =>
    intro s hInv hM
    have hq : s.queue.length = 0 := by omega
    have hq2 : s.queue = [] := List.length_eq_zero.1 hq
    show (bfsLoop mst n 0 s).queue = []
    rw [show bfsLoop mst n 0 s = s from rfl]
    exact hq2
  | succ fuel ih =>
    intro s hInv hM
    rcases s with ⟨v, p, q⟩
    rcases q with _ | ⟨node, rest⟩
    · exact rfl
    · have hnode : node ∈ v := hInv.queueSub node (List.mem_cons_self _ _)
      have hrest : BfsInv n root ⟨v, p, rest⟩ :=
        { hInv with
          queueSub := fun x hx => hInv.queueSub x (List.mem_cons_of_mem _ hx) }
      have hInv2 : BfsInv n root (bfsVisitNeighbors mst n node ⟨v, p, rest⟩) :=
        bfsFold_inv (List.range n) (fun x hx => List.mem_range.1 hx) _ hnode hrest
      have hgrow2 : (bfsVisitNeighbors mst n node ⟨v, p, rest⟩).visited.length +
          rest.length =
          (bfsVisitNeighbors mst n node ⟨v, p, rest⟩).queue.length + v.length :=
        bfsFold_growth mst node (List.range n) ⟨v, p, rest⟩
      have hvle2 : v.length ≤
          (bfsVisitNeighbors mst n node ⟨v, p, rest⟩).visited.length :=
        bfsFold_visited_le mst node (List.range n) ⟨v, p, rest⟩
      have hv2n : (bfsVisitNeighbors mst n node ⟨v, p, rest⟩).visited.length ≤ n :=
        bfsInv_visited_le_n hInv2
      have hvn : v.length ≤ n := bfsInv_visited_le_n hInv
      have hM2 : (n - v.length) + (rest.length + 1) ≤ fuel + 1 := hM
      refine ih _ hInv2 ?_
      show n - (bfsVisitNeighbors mst n node ⟨v, p, rest⟩).visited.length +
        (bfsVisitNeighbors mst n node ⟨v, p, rest⟩).queue.length ≤ fuel
      omega

/-- The BFS of `build_phylogeny_tree` terminates with an empty queue
within its `n + 1` units of fuel: the fuel-based `bfsLoop` computes the
same final state as the source's unbounded `while queue:` loop. -/
theorem bfsRun_queue_empty (mst : ℕ → ℕ → ℚ) (ts : List ℤ) (h : 0 < ts.length) :
    (bfsRun mst ts).queue = [] := by
  unfold bfsRun
  refine @bfsLoop_empties mst ts.length (argminIdx ts) (ts.length + 1) _ ?_ ?_
  · refine ⟨List.nodup_singleton _, ?_, ?_, ⟨[], rfl⟩, rfl, fun _ _ => rfl, ?_⟩
    · intro x hx
      rw [List.mem_singleton.1 hx]
      exact argminIdx_lt h
    · exact fun x hx => hx
    · intro i hi hroot
      exact absurd (List.mem_singleton.1 hi) hroot
  · show ts.length - 1 + 1 ≤ ts.length + 1
    omega

end Muser
